import Mathlib

/-!
Formal model of the `intree` Go package (github.com/lggomez/intree): a static,
flat, augmented interval tree answering reverse stabbing queries.

Representation notes.

The Go code keeps two parallel arrays inside `INTree`:
  `indexes : []int`   and   `limits : []float64` (stride 3).
For slot `i` the three float cells are
  `limits[3*i]   = lower bound`,
  `limits[3*i+1] = upper bound`,
  `limits[3*i+2] = subtree max ("smax")`,
and `indexes[i]` is the original position of the interval now at slot `i`.
All three cells and the index are swapped together in `sort`, so we model a
slot as a record `Slot` and the pair of parallel arrays as a `List Slot`.

Floating point values are modelled by `ℚ`: the package never performs
arithmetic on the bounds, it only copies and compares them (and compares
against the literal `0.0`), and IEEE-754 comparison on finite doubles is a
linear order containing `0`, so every behaviour the claims mention is
preserved.  (`NaN`/infinite inputs are out of scope, as in the spec.)
`math.Ceil(float64(l+r) / 2.0)` is exact for every reachable `l + r` and is
modelled by `ceilHalf` below.

`rand.Int()` results are modelled by a list `rands : List ℕ` of pivot choices
consumed in call order (an exhausted list yields pivot choice `0`); every
theorem quantifies over all such lists.
-/

namespace Intree

/-- Slot of the built tree: one interval's lower/upper limit, the subtree-max
augmentation cell (`limits[3*i+2]` in the Go code) and the original position
(`indexes[i]` in the Go code). -/
structure Slot where
  lower : ℚ
  upper : ℚ
  smax : ℚ
  idx : ℕ
deriving DecidableEq

instance : Inhabited Slot := ⟨⟨0, 0, 0, 0⟩⟩

/-- Model of the Go parallel assignment
`indexes[i], indexes[j] = indexes[j], indexes[i]` together with the
corresponding three-cell `limits` swap: exchange positions `i` and `j` of the
slot list (identity when an index is out of range, which never happens in the
code paths modelled here). -/
def swapL {α : Type} (xs : List α) (i j : ℕ) : List α :=
  match xs[i]?, xs[j]? with
  | some a, some b => (xs.set i b).set j a
  | _, _ => xs

@[simp] theorem swapL_length {α : Type} (xs : List α) (i j : ℕ) :
    (swapL xs i j).length = xs.length := by
  unfold swapL
  cases xs[i]? <;> cases xs[j]? <;> simp

theorem swapL_getD_fst {α : Type} (xs : List α) (i j : ℕ) (d : α)
    (hi : i < xs.length) (hj : j < xs.length) :
    (swapL xs i j).getD i d = xs.getD j d := by
  unfold swapL
  rw [List.getElem?_eq_getElem hi, List.getElem?_eq_getElem hj]
  by_cases h : j = i
  · subst h
    simp [List.getElem?_set_self hj, List.getElem?_eq_getElem hj]
  · simp [List.getElem?_set_ne h, List.getElem?_set_self, hi,
      List.getElem?_eq_getElem hj]

theorem swapL_getD_snd {α : Type} (xs : List α) (i j : ℕ) (d : α)
    (hi : i < xs.length) (hj : j < xs.length) :
    (swapL xs i j).getD j d = xs.getD i d := by
  unfold swapL
  rw [List.getElem?_eq_getElem hi, List.getElem?_eq_getElem hj]
  have hjl : j < (xs.set i xs[j]).length := by simpa using hj
  simp [List.getElem?_set_self hjl, List.getElem?_eq_getElem hi]

theorem swapL_getD_other {α : Type} (xs : List α) (i j k : ℕ) (d : α)
    (hki : k ≠ i) (hkj : k ≠ j) :
    (swapL xs i j).getD k d = xs.getD k d := by
  unfold swapL
  cases hi : xs[i]? <;> cases hj : xs[j]? <;>
    simp [List.getElem?_set_ne (Ne.symm hkj), List.getElem?_set_ne (Ne.symm hki)]

/-- Helper for `swapL_perm`: replacing the element at position `k` with `x`
while moving the old element to the front is a permutation of putting `x` in
front. -/
theorem getD_cons_set_perm {α : Type} (d : α) :
    ∀ (t : List α) (k : ℕ) (x : α), k < t.length →
      (t.getD k d :: t.set k x).Perm (x :: t) := by
  intro t
  induction t with
  | nil => intro k x h; simp at h
  | cons y s ih =>
    intro k x h
    cases k with
    | zero => simpa using List.Perm.swap x y s
    | succ k =>
      have hk : k < s.length := by simpa using h
      have h1 : (s.getD k d :: y :: s.set k x).Perm (y :: s.getD k d :: s.set k x) :=
        List.Perm.swap y (s.getD k d) (s.set k x)
      have h2 : (y :: s.getD k d :: s.set k x).Perm (y :: x :: s) :=
        List.Perm.cons y (ih k x hk)
      have h3 : (y :: x :: s).Perm (x :: y :: s) := List.Perm.swap x y s
      simpa using (h1.trans h2).trans h3

/-- Helper for `swapL_perm` with both indices in range. -/
theorem set_set_perm {α : Type} (d : α) :
    ∀ (xs : List α) (i j : ℕ), i < xs.length → j < xs.length →
      ((xs.set i (xs.getD j d)).set j (xs.getD i d)).Perm xs := by
  intro xs
  induction xs with
  | nil => intro i j hi _; simp at hi
  | cons x t ih =>
    intro i j hi hj
    cases i with
    | zero =>
      cases j with
      | zero => simp
      | succ k =>
        have hk : k < t.length := by simpa using hj
        have : ((x :: t).set 0 ((x :: t).getD (k + 1) d)).set (k + 1)
            ((x :: t).getD 0 d) = t.getD k d :: t.set k x := by
          simp
        rw [this]
        exact getD_cons_set_perm d t k x hk
    | succ m =>
      cases j with
      | zero =>
        have hm : m < t.length := by simpa using hi
        have : ((x :: t).set (m + 1) ((x :: t).getD 0 d)).set 0
            ((x :: t).getD (m + 1) d) = t.getD m d :: t.set m x := by
          simp
        rw [this]
        exact getD_cons_set_perm d t m x hm
      | succ k =>
        have hm : m < t.length := by simpa using hi
        have hk : k < t.length := by simpa using hj
        have : ((x :: t).set (m + 1) ((x :: t).getD (k + 1) d)).set (k + 1)
            ((x :: t).getD (m + 1) d)
            = x :: (t.set m (t.getD k d)).set k (t.getD m d) := by
          simp
        rw [this]
        exact List.Perm.cons x (ih m k hm hk)

theorem swapL_perm {α : Type} [Inhabited α] (xs : List α) (i j : ℕ) :
    (swapL xs i j).Perm xs := by
  unfold swapL
  cases hi : xs[i]? with
  | none => exact List.Perm.refl xs
  | some a =>
    cases hj : xs[j]? with
    | none => exact List.Perm.refl xs
    | some b =>
      have hil : i < xs.length := by
        by_contra h
        rw [List.getElem?_eq_none (by omega)] at hi
        exact Option.noConfusion hi
      have hjl : j < xs.length := by
        by_contra h
        rw [List.getElem?_eq_none (by omega)] at hj
        exact Option.noConfusion hj
      have ha : a = xs.getD i default := by
        rw [List.getD_eq_getElem?_getD, hi]; rfl
      have hb : b = xs.getD j default := by
        rw [List.getD_eq_getElem?_getD, hj]; rfl
      rw [ha, hb]
      exact set_set_perm default xs i j hil hjl

theorem shiftRight_one_eq (n : ℕ) : n >>> 1 = n / 2 := by
  rw [Nat.shiftRight_eq_div_pow]

/-- Model of the scan in `augment` that computes
`max := 0.0; for idx := range indexes { if limits[3*idx+1] > max { max = limits[3*idx+1] } }`:
the fold starts from the literal `0.0` exactly as in the source. -/
def maxUpper (slots : List Slot) : ℚ :=
  slots.foldl (fun m s => if s.upper > m then s.upper else m) 0

/-- Model of `augment(limits, indexes)`: if the slice is nonempty, scan the
whole current slice for `maxUpper`, store it in the smax cell of the slot at
`r := len >> 1` (`limits[3*r+2] = max`), then recurse on the sub-slices
`limits[:3*r], indexes[:r]` and `limits[3*r+3:], indexes[r+1:]`.  The Go
version mutates in place; here the updated slice is returned. -/
def augment (slots : List Slot) : List Slot :=
  if slots.length < 1 then slots
  else
    let mx := maxUpper slots
    let r := slots.length >>> 1
    augment (slots.take r) ++ { slots.getD r default with smax := mx } :: augment (slots.drop (r + 1))
termination_by slots.length
decreasing_by
  all_goals simp only [List.length_take, List.length_drop]
  all_goals have _h2 : slots.length >>> 1 = slots.length / 2 := shiftRight_one_eq _
  all_goals omega

/-- Model of the partition loop inside `sort`:
`for i := range indexes { if limits[3*i] < limits[3*r] { swap(l, i); l++ } }`.
The loop index `i` runs from its current value to the end of the slice; the
pivot sits at position `r` (the last slot of the slice). -/
def partLoop (arr : List Slot) (r l i : ℕ) : List Slot × ℕ :=
  if h : i < arr.length then
    if (arr.getD i default).lower < (arr.getD r default).lower then
      partLoop (swapL arr l i) r (l + 1) (i + 1)
    else
      partLoop arr r l (i + 1)
  else (arr, l)
termination_by arr.length - i
decreasing_by
  · simp only [swapL_length]; omega
  · omega

theorem partLoop_length (arr : List Slot) (r l i : ℕ) :
    (partLoop arr r l i).1.length = arr.length := by
  induction arr, r, l, i using partLoop.induct with
  | case1 arr r l i h hc ih =>
    rw [partLoop, dif_pos h, if_pos hc]
    rw [ih, swapL_length]
  | case2 arr r l i h hc ih =>
    rw [partLoop, dif_pos h, if_neg hc]
    exact ih
  | case3 arr r l i h => rw [partLoop, dif_neg h]

theorem partLoop_perm (arr : List Slot) (r l i : ℕ) :
    (partLoop arr r l i).1.Perm arr := by
  induction arr, r, l, i using partLoop.induct with
  | case1 arr r l i h hc ih =>
    rw [partLoop, dif_pos h, if_pos hc]
    exact ih.trans (swapL_perm arr l i)
  | case2 arr r l i h hc ih =>
    rw [partLoop, dif_pos h, if_neg hc]
    exact ih
  | case3 arr r l i h => rw [partLoop, dif_neg h]

/-- Final value of `l` after the partition loop: it never exceeds the pivot
position `r` (the comparison `limits[3*i] < limits[3*r]` is false at `i = r`,
so `l` is not incremented there). -/
theorem partLoop_l_le (arr : List Slot) (r l i : ℕ)
    (hli : l ≤ i) (hlr : l ≤ r) (hr : r = arr.length - 1) :
    (partLoop arr r l i).2 ≤ r := by
  induction arr, r, l, i using partLoop.induct with
  | case1 arr r l i h hc ih =>
    rw [partLoop, dif_pos h, if_pos hc]
    have hir : i ≠ r := by
      intro he; rw [he] at hc; exact absurd hc (lt_irrefl _)
    exact ih (by omega) (by omega) (by simp [swapL_length, hr])
  | case2 arr r l i h hc ih =>
    rw [partLoop, dif_pos h, if_neg hc]
    exact ih (by omega) hlr hr
  | case3 arr r l i h =>
    rw [partLoop, dif_neg h]
    exact hlr

/-- Model of `sort(limits, indexes)`: randomized in-place quicksort on the
parallel arrays, ascending by lower limit.  `rands` supplies the successive
`rand.Int()` values (consumed in call order, head first); the pivot index is
`rand % len`.  Returns the sorted slice together with the unconsumed suffix
of `rands`. -/
def sort (rands : List ℕ) (arr : List Slot) : List Slot × List ℕ :=
  if arr.length < 2 then (arr, rands)
  else
    let r := arr.length - 1
    let p := rands.headD 0 % arr.length
    let arr1 := swapL arr p r
    let pres := partLoop arr1 r 0 0
    let arr3 := swapL pres.1 pres.2 r
    let leftRes := sort rands.tail (arr3.take pres.2)
    let rightRes := sort leftRes.2 (arr3.drop (pres.2 + 1))
    (leftRes.1 ++ arr3.getD pres.2 default :: rightRes.1, rightRes.2)
termination_by arr.length
decreasing_by
  · have h1 : (partLoop (swapL arr (rands.headD 0 % arr.length) (arr.length - 1))
        (arr.length - 1) 0 0).2 ≤ arr.length - 1 := by
      apply partLoop_l_le
      · exact Nat.zero_le _
      · exact Nat.zero_le _
      · simp [swapL_length]
    simp only [List.length_take, swapL_length, partLoop_length]
    omega
  · simp only [List.length_drop, swapL_length, partLoop_length]
    omega

/-- Initialization loop of `buildTree`:
`for i, v := range bounds { t.indexes[i] = i; l, u := v.Limits();
t.limits[3*i] = l; t.limits[3*i+1] = u; t.limits[3*i+2] = 0 }`.
An input interval is the pair `(lower, upper)` returned by `Limits()`. -/
def initSlots (bounds : List (ℚ × ℚ)) : List Slot :=
  (List.range bounds.length).map fun i =>
    { lower := (bounds.getD i (0, 0)).1, upper := (bounds.getD i (0, 0)).2,
      smax := 0, idx := i }

/-- Model of `t.buildTree(bounds)` (and of `buildTreeV`, which has the same
body): initialize `indexes[i] = i`, `limits[3*i] = lower`, `limits[3*i+1] =
upper`, `limits[3*i+2] = 0`, then `sort` and `augment`. -/
def buildTree (rands : List ℕ) (bounds : List (ℚ × ℚ)) : List Slot :=
  augment (sort rands (initSlots bounds)).1

/-- Model of `NewINTree(bounds)`. -/
def NewINTree (rands : List ℕ) (bounds : List (ℚ × ℚ)) : List Slot :=
  buildTree rands bounds

/-- Model of `t.buildTreeV(bounds)`: identical to `buildTree` except that the
input also carries the opaque satellite value returned by `Value()` (third
component), which is never read. -/
def buildTreeV {V : Type} [Inhabited V] (rands : List ℕ)
    (bounds : List (ℚ × ℚ × V)) : List Slot :=
  let slots := (List.range bounds.length).map fun i =>
    { lower := (bounds.getD i default).1, upper := (bounds.getD i default).2.1,
      smax := 0, idx := i }
  augment (sort rands slots).1

/-- Model of `NewINTreeV(bounds)`. -/
def NewINTreeV {V : Type} [Inhabited V] (rands : List ℕ)
    (bounds : List (ℚ × ℚ × V)) : List Slot :=
  buildTreeV rands bounds

/-- Model of `int(math.Ceil(float64(k) / 2.0))` for an integer `k` (exact:
every reachable `k` is far below 2^53). -/
def ceilHalf (k : ℤ) : ℤ := ⌈(k : ℚ) / 2⌉

theorem ceilHalf_even (a : ℤ) : ceilHalf (2 * a) = a := by
  unfold ceilHalf
  have h : ((2 * a : ℤ) : ℚ) / 2 = (a : ℚ) := by push_cast; ring
  rw [h, Int.ceil_intCast]

theorem ceilHalf_odd (a : ℤ) : ceilHalf (2 * a + 1) = a + 1 := by
  unfold ceilHalf
  have h : ((2 * a + 1 : ℤ) : ℚ) / 2 = (1 / 2 : ℚ) + (a : ℚ) := by push_cast; ring
  rw [h, Int.ceil_add_int]
  have hc : ⌈(1 / 2 : ℚ)⌉ = 1 := by
    rw [Int.ceil_eq_iff]; norm_num
  rw [hc]; ring

theorem ceilHalf_bounds {l r : ℤ} (h : l ≤ r) :
    l ≤ ceilHalf (l + r) ∧ ceilHalf (l + r) ≤ r := by
  rcases Int.even_or_odd (l + r) with ⟨a, ha⟩ | ⟨a, ha⟩
  · have he : l + r = 2 * a := by omega
    rw [he, ceilHalf_even]; omega
  · have ho : l + r = 2 * a + 1 := by omega
    rw [ho, ceilHalf_odd]; omega

theorem ceilHalf_add_two_mul (x k : ℤ) : ceilHalf (x + 2 * k) = ceilHalf x + k := by
  unfold ceilHalf
  have h : ((x + 2 * k : ℤ) : ℚ) / 2 = (x : ℚ) / 2 + (k : ℤ) := by push_cast; ring
  rw [h, Int.ceil_add_int]

/-- Center slot used by `augment` on a slice of length `n` (`r := len >> 1`),
as an absolute position: it agrees with the query-time centering rule. -/
theorem ceilHalf_of_length {n : ℕ} (_h : 1 ≤ n) :
    ceilHalf ((n : ℤ) - 1) = (n / 2 : ℕ) := by
  rcases Int.even_or_odd ((n : ℤ) - 1) with ⟨a, ha⟩ | ⟨a, ha⟩
  · have he : (n : ℤ) - 1 = 2 * a := by omega
    rw [he, ceilHalf_even]; omega
  · have ho : (n : ℤ) - 1 = 2 * a + 1 := by omega
    rw [ho, ceilHalf_odd]; omega

/-- Model of the body of `Including`: the explicit work stack `idxStock`
holds `(lBoundIdx, rBoundIdx)` pairs (the Go code flattens them into an int
slice whose end is the stack top; pairs are pushed and popped together, the
right bound on top).  `fuel` is a structural-recursion bound; `Including`
supplies enough fuel for the loop to run to completion (see
`includingLoopChecked_eq`). -/
def includingLoop (slots : List Slot) (val : ℚ) :
    ℕ → List (ℤ × ℤ) → List ℕ → List ℕ
  | 0, _, result => result
  | _ + 1, [], result => result
  | fuel + 1, (lBoundIdx, rBoundIdx) :: rest, result =>
    if lBoundIdx = rBoundIdx + 1 then
      includingLoop slots val fuel rest result
    else
      let centerIdx := ceilHalf (lBoundIdx + rBoundIdx)
      let s := slots.getD centerIdx.toNat default
      let stock1 := if val ≤ s.smax then (lBoundIdx, centerIdx - 1) :: rest else rest
      if s.lower ≤ val then
        let stock2 := (centerIdx + 1, rBoundIdx) :: stock1
        if val ≤ s.upper then
          includingLoop slots val fuel stock2 (result ++ [s.idx])
        else
          includingLoop slots val fuel stock2 result
      else
        includingLoop slots val fuel stock1 result

/-- Model of `t.Including(val)`: run the stack loop starting from the full
range `(0, len(indexes)-1)` with an empty result.  `3 ^ n + 1` units of fuel
strictly dominate the loop's step count (see `includingLoop_eq_dfsList`). -/
def Including (slots : List Slot) (val : ℚ) : List ℕ :=
  includingLoop slots val (3 ^ slots.length + 1) [(0, (slots.length : ℤ) - 1)] []

/-- Instrumented copy of `includingLoop` that returns `none` whenever the Go
code would read `limits` or `indexes` out of bounds (or when fuel runs out):
used to state that the query never performs an out-of-bounds access. -/
def includingLoopChecked (slots : List Slot) (val : ℚ) :
    ℕ → List (ℤ × ℤ) → List ℕ → Option (List ℕ)
  | 0, _, _ => none
  | _ + 1, [], result => some result
  | fuel + 1, (lBoundIdx, rBoundIdx) :: rest, result =>
    if lBoundIdx = rBoundIdx + 1 then
      includingLoopChecked slots val fuel rest result
    else
      let centerIdx := ceilHalf (lBoundIdx + rBoundIdx)
      if 0 ≤ centerIdx ∧ centerIdx < (slots.length : ℤ) then
        let s := slots.getD centerIdx.toNat default
        let stock1 := if val ≤ s.smax then (lBoundIdx, centerIdx - 1) :: rest else rest
        if s.lower ≤ val then
          let stock2 := (centerIdx + 1, rBoundIdx) :: stock1
          if val ≤ s.upper then
            includingLoopChecked slots val fuel stock2 (result ++ [s.idx])
          else
            includingLoopChecked slots val fuel stock2 result
        else
          includingLoopChecked slots val fuel stock1 result
      else none

/-- Recursive description of the traversal order of `Including` on one slot
range: visit the center, then (guarded exactly as in the loop) the right
subrange, then the left subrange.  Empty and inverted ranges yield nothing. -/
def dfsList (slots : List Slot) (val : ℚ) (l r : ℤ) : List ℕ :=
  if r + 1 ≤ l then []
  else
    let c := ceilHalf (l + r)
    let s := slots.getD c.toNat default
    (if s.lower ≤ val ∧ val ≤ s.upper then [s.idx] else [])
      ++ (if s.lower ≤ val then dfsList slots val (c + 1) r else [])
      ++ (if val ≤ s.smax then dfsList slots val l (c - 1) else [])
termination_by (r + 1 - l).toNat
decreasing_by
  · have := ceilHalf_bounds (show l ≤ r by omega)
    omega
  · have := ceilHalf_bounds (show l ≤ r by omega)
    omega

/-- Position-indexed view of a slot list (as the stack machine addresses it,
through an `ℤ`-valued center index). -/
def slotAt (slots : List Slot) (i : ℤ) : Slot := slots.getD i.toNat default

/-- Augmentation invariant on the decomposition tree of the range `[l, r]`:
the smax cell of each center bounds every upper limit in its whole range.
Stated over an arbitrary position function `f` so that it can be transported
along list concatenation and index shifts. -/
def SmaxOK (f : ℤ → Slot) (l r : ℤ) : Prop :=
  if r + 1 ≤ l then True
  else
    (∀ j, l ≤ j → j ≤ r → (f j).upper ≤ (f (ceilHalf (l + r))).smax)
      ∧ SmaxOK f l (ceilHalf (l + r) - 1) ∧ SmaxOK f (ceilHalf (l + r) + 1) r
termination_by (r + 1 - l).toNat
decreasing_by
  · have := ceilHalf_bounds (show l ≤ r by omega)
    omega
  · have := ceilHalf_bounds (show l ≤ r by omega)
    omega

/-- Integer range `[l, r]` as a list, for the brute-force description of the
matching positions inside one slot range. -/
def intRange (l r : ℤ) : List ℤ :=
  (List.range (r + 1 - l).toNat).map fun t : ℕ => l + (t : ℤ)

/-- Brute-force description of the positions collected inside slot range
`[l, r]`: the original indices of the slots whose interval contains `val`. -/
def matchIdxs (slots : List Slot) (val : ℚ) (l r : ℤ) : List ℕ :=
  ((intRange l r).filter fun j =>
      decide ((slotAt slots j).lower ≤ val ∧ val ≤ (slotAt slots j).upper)).map
    fun j => (slotAt slots j).idx

/-- Brute-force linear scan over the original, unsorted input: the original
positions whose interval contains `val`. -/
def bruteIncluding (bounds : List (ℚ × ℚ)) (val : ℚ) : List ℕ :=
  (List.range bounds.length).filter fun i =>
    decide ((bounds.getD i (0, 0)).1 ≤ val ∧ val ≤ (bounds.getD i (0, 0)).2)

/-- Termination measure for the query loop: each stack entry weighs
`3 ^ (size of its range)`. -/
def stackMeasure (stack : List (ℤ × ℤ)) : ℕ :=
  (stack.map fun p => 3 ^ (p.2 + 1 - p.1).toNat).sum

theorem getD_append_left {α : Type} (L M : List α) (k : ℕ) (d : α)
    (h : k < L.length) : (L ++ M).getD k d = L.getD k d := by
  simp [List.getD_eq_getElem?_getD, List.getElem?_append_left h]

theorem getD_append_right {α : Type} (L M : List α) (k : ℕ) (d : α)
    (h : L.length ≤ k) : (L ++ M).getD k d = M.getD (k - L.length) d := by
  simp [List.getD_eq_getElem?_getD, List.getElem?_append_right h]

theorem getD_take {α : Type} (xs : List α) (n k : ℕ) (d : α) (h : k < n) :
    (xs.take n).getD k d = xs.getD k d := by
  simp [List.getD_eq_getElem?_getD, List.getElem?_take, h]

theorem getD_drop {α : Type} (xs : List α) (n k : ℕ) (d : α) :
    (xs.drop n).getD k d = xs.getD (n + k) d := by
  simp [List.getD_eq_getElem?_getD, List.getElem?_drop]

theorem getD_of_length_le {α : Type} (xs : List α) (k : ℕ) (d : α)
    (h : xs.length ≤ k) : xs.getD k d = d := by
  simp [List.getD_eq_getElem?_getD, List.getElem?_eq_none h]

theorem maxUpper_step (m : ℚ) (s : Slot) :
    (if s.upper > m then s.upper else m) = max m s.upper := by
  rcases le_or_lt s.upper m with h | h
  · rw [if_neg (not_lt.mpr h), max_eq_left h]
  · rw [if_pos h, max_eq_right h.le]

theorem maxUpper_fold_ge_init :
    ∀ (xs : List Slot) (a : ℚ),
      a ≤ xs.foldl (fun m s => if s.upper > m then s.upper else m) a := by
  intro xs
  induction xs with
  | nil => intro a; simp
  | cons x t ih =>
    intro a
    have h1 : a ≤ max a x.upper := le_max_left _ _
    calc a ≤ max a x.upper := h1
      _ ≤ t.foldl (fun m s => if s.upper > m then s.upper else m) (max a x.upper) := ih _
      _ = (x :: t).foldl (fun m s => if s.upper > m then s.upper else m) a := by
          simp [maxUpper_step]

theorem maxUpper_fold_mem :
    ∀ (xs : List Slot) (a : ℚ) (s : Slot), s ∈ xs →
      s.upper ≤ xs.foldl (fun m s => if s.upper > m then s.upper else m) a := by
  intro xs
  induction xs with
  | nil => intro a s h; simp at h
  | cons x t ih =>
    intro a s h
    rcases List.mem_cons.mp h with rfl | h
    · calc s.upper ≤ max a s.upper := le_max_right _ _
        _ ≤ t.foldl (fun m s => if s.upper > m then s.upper else m) (max a s.upper) :=
            maxUpper_fold_ge_init _ _
        _ = (s :: t).foldl (fun m s => if s.upper > m then s.upper else m) a := by
            simp [maxUpper_step]
    · have := ih (max a x.upper) s h
      calc s.upper ≤ t.foldl (fun m s => if s.upper > m then s.upper else m) (max a x.upper) := this
        _ = (x :: t).foldl (fun m s => if s.upper > m then s.upper else m) a := by
            simp [maxUpper_step]

theorem maxUpper_nonneg (xs : List Slot) : 0 ≤ maxUpper xs :=
  maxUpper_fold_ge_init xs 0

theorem maxUpper_ge (xs : List Slot) (s : Slot) (h : s ∈ xs) :
    s.upper ≤ maxUpper xs :=
  maxUpper_fold_mem xs 0 s h

theorem augment_eq (xs : List Slot) (h : ¬ xs.length < 1) :
    augment xs = augment (xs.take (xs.length >>> 1)) ++
      { xs.getD (xs.length >>> 1) default with smax := maxUpper xs } ::
        augment (xs.drop (xs.length >>> 1 + 1)) := by
  rw [augment, if_neg h]

theorem augment_length (xs : List Slot) : (augment xs).length = xs.length := by
  induction xs using augment.induct with
  | case1 xs h => rw [augment, if_pos h]
  | case2 xs h r ih1 ih2 =>
    rw [augment, if_neg h]
    have hr : r = xs.length / 2 := shiftRight_one_eq _
    simp only [List.length_append, List.length_cons, List.length_take,
      List.length_drop, ih1, ih2]
    omega

/-- Augmentation writes only the smax cells: lower and upper limits and the
original indices are untouched at every position. -/
theorem augment_getD_fields (xs : List Slot) :
    ∀ k : ℕ, ((augment xs).getD k default).lower = (xs.getD k default).lower
      ∧ ((augment xs).getD k default).upper = (xs.getD k default).upper
      ∧ ((augment xs).getD k default).idx = (xs.getD k default).idx := by
  induction xs using augment.induct with
  | case1 xs h => intro k; rw [augment, if_pos h]; exact ⟨rfl, rfl, rfl⟩
  | case2 xs h r ih1 ih2 =>
    intro k
    rw [augment_eq xs h]
    have hr2 : r = xs.length / 2 := shiftRight_one_eq _
    have hrn : r < xs.length := by omega
    have hAlen : (augment (xs.take r)).length = r := by
      rw [augment_length, List.length_take]; omega
    show ((augment (xs.take r) ++ _ :: augment (xs.drop (r + 1))).getD k default).lower = _ ∧ _
    rcases lt_trichotomy k r with hk | hk | hk
    · rw [getD_append_left _ _ _ _ (by rw [hAlen]; exact hk)]
      have htk := ih1 k
      rwa [getD_take _ _ _ _ hk] at htk
    · subst hk
      rw [getD_append_right _ _ _ _ (le_of_eq hAlen)]
      rw [hAlen, Nat.sub_self, List.getD_cons_zero]
      exact ⟨rfl, rfl, rfl⟩
    · rw [getD_append_right _ _ _ _ (by rw [hAlen]; omega)]
      rw [hAlen]
      have hks : k - r = (k - r - 1) + 1 := by omega
      rw [hks, List.getD_cons_succ]
      have htd := ih2 (k - r - 1)
      rw [getD_drop] at htd
      have hix : r + 1 + (k - r - 1) = k := by omega
      rwa [hix] at htd

/-- The invariant `SmaxOK` only inspects positions inside `[l, r]`, so it can
be transported along functions that agree there. -/
theorem SmaxOK_congr : ∀ (n : ℕ) (f g : ℤ → Slot) (l r : ℤ),
    (r + 1 - l).toNat ≤ n → (∀ j, l ≤ j → j ≤ r → f j = g j) →
    SmaxOK f l r → SmaxOK g l r := by
  intro n
  induction n with
  | zero =>
    intro f g l r hn hfg hs
    rw [SmaxOK, if_pos (by omega)]
    trivial
  | succ n ih =>
    intro f g l r hn hfg hs
    by_cases hg : r + 1 ≤ l
    · rw [SmaxOK, if_pos hg]; trivial
    · rw [SmaxOK, if_neg hg] at hs ⊢
      have hlr : l ≤ r := by omega
      have hc := ceilHalf_bounds hlr
      obtain ⟨h1, h2, h3⟩ := hs
      refine ⟨?_, ?_, ?_⟩
      · intro j hj1 hj2
        rw [← hfg j hj1 hj2, ← hfg _ hc.1 hc.2]
        exact h1 j hj1 hj2
      · exact ih f g l (ceilHalf (l + r) - 1) (by omega)
          (fun j hj1 hj2 => hfg j hj1 (by omega)) h2
      · exact ih f g (ceilHalf (l + r) + 1) r (by omega)
          (fun j hj1 hj2 => hfg j (by omega) hj2) h3

/-- The invariant `SmaxOK` is stable under shifting every position by `k`. -/
theorem SmaxOK_shift : ∀ (n : ℕ) (f : ℤ → Slot) (l r k : ℤ),
    (r + 1 - l).toNat ≤ n → SmaxOK f l r →
    SmaxOK (fun j => f (j - k)) (l + k) (r + k) := by
  intro n
  induction n with
  | zero =>
    intro f l r k hn hs
    rw [SmaxOK, if_pos (by omega)]
    trivial
  | succ n ih =>
    intro f l r k hn hs
    by_cases hg : r + 1 ≤ l
    · rw [SmaxOK, if_pos (by omega)]; trivial
    · rw [SmaxOK, if_neg hg] at hs
      rw [SmaxOK, if_neg (by omega)]
      have hlr : l ≤ r := by omega
      have hc := ceilHalf_bounds hlr
      have hsum : l + k + (r + k) = (l + r) + 2 * k := by ring
      rw [hsum, ceilHalf_add_two_mul]
      obtain ⟨h1, h2, h3⟩ := hs
      refine ⟨?_, ?_, ?_⟩
      · intro j hj1 hj2
        have hck : ceilHalf (l + r) + k - k = ceilHalf (l + r) := by ring
        rw [hck]
        exact h1 (j - k) (by omega) (by omega)
      · have he : ceilHalf (l + r) + k - 1 = (ceilHalf (l + r) - 1) + k := by ring
        rw [he]
        exact ih f l (ceilHalf (l + r) - 1) k (by omega) h2
      · have he : ceilHalf (l + r) + k + 1 = (ceilHalf (l + r) + 1) + k := by ring
        rw [he]
        exact ih f (ceilHalf (l + r) + 1) r k (by omega) h3

/-- After `augment`, the smax cell at the center of every decomposition range
bounds all upper limits in that range: the augmentation invariant holds for
the whole implicit tree. -/
theorem augment_smaxOK (xs : List Slot) :
    SmaxOK (slotAt (augment xs)) 0 ((xs.length : ℤ) - 1) := by
  induction xs using augment.induct with
  | case1 xs h =>
    rw [SmaxOK, if_pos (by omega)]
    trivial
  | case2 xs h r ih1 ih2 =>
    have hr2 : r = xs.length / 2 := shiftRight_one_eq _
    have hn1 : 1 ≤ xs.length := by omega
    have hrn : r < xs.length := by omega
    have hAlen : (augment (xs.take r)).length = r := by
      rw [augment_length, List.length_take]; omega
    have hBlen : (augment (xs.drop (r + 1))).length = xs.length - r - 1 := by
      rw [augment_length, List.length_drop]; omega
    rw [SmaxOK, if_neg (by omega)]
    have hc : ceilHalf (0 + ((xs.length : ℤ) - 1)) = (r : ℤ) := by
      rw [zero_add, ceilHalf_of_length hn1]
      exact_mod_cast hr2.symm
    rw [hc]
    have hmid : slotAt (augment xs) (r : ℤ) =
        { xs.getD r default with smax := maxUpper xs } := by
      unfold slotAt
      rw [augment_eq xs h, Int.toNat_natCast]
      rw [getD_append_right _ _ _ _ (le_of_eq hAlen)]
      rw [hAlen, Nat.sub_self, List.getD_cons_zero]
    refine ⟨?_, ?_, ?_⟩
    · intro j hj1 hj2
      rw [hmid]
      have hjn : j.toNat < xs.length := by omega
      have hup : (slotAt (augment xs) j).upper = (xs.getD j.toNat default).upper :=
        (augment_getD_fields xs j.toNat).2.1
      rw [hup]
      have hmem : xs.getD j.toNat default ∈ xs := by
        rw [List.getD_eq_getElem?_getD, List.getElem?_eq_getElem hjn]
        exact List.getElem_mem hjn
      exact maxUpper_ge xs _ hmem
    · -- left subtree `[0, r-1]` is the augmented take
      have hleft := ih1
      rw [List.length_take, min_eq_left (le_of_lt hrn)] at hleft
      refine SmaxOK_congr ((r : ℤ) - 1 + 1 - 0).toNat _ _ 0 ((r : ℤ) - 1) le_rfl ?_ hleft
      intro j hj1 hj2
      unfold slotAt
      rw [augment_eq xs h]
      rw [getD_append_left _ _ _ _ (by rw [hAlen]; omega)]
    · -- right subtree `[r+1, n-1]` is the augmented drop, shifted by `r+1`
      have hright := ih2
      rw [List.length_drop] at hright
      have hshift := SmaxOK_shift (((xs.length - (r + 1) : ℕ) : ℤ) - 1 + 1 - 0).toNat
        _ 0 (((xs.length - (r + 1) : ℕ) : ℤ) - 1) ((r : ℤ) + 1) le_rfl hright
      have he1 : (0 : ℤ) + ((r : ℤ) + 1) = (r : ℤ) + 1 := by ring
      have he2 : (((xs.length - (r + 1) : ℕ) : ℤ) - 1) + ((r : ℤ) + 1)
          = (xs.length : ℤ) - 1 := by omega
      rw [he1, he2] at hshift
      refine SmaxOK_congr (((xs.length : ℤ) - 1) + 1 - ((r : ℤ) + 1)).toNat _ _
        ((r : ℤ) + 1) ((xs.length : ℤ) - 1) le_rfl ?_ hshift
      intro j hj1 hj2
      unfold slotAt
      rw [augment_eq xs h]
      rw [getD_append_right _ _ _ _ (by rw [hAlen]; omega)]
      rw [hAlen]
      have hks : j.toNat - r = (j.toNat - r - 1) + 1 := by omega
      rw [hks, List.getD_cons_succ]
      have hjk : (j - ((r : ℤ) + 1)).toNat = j.toNat - r - 1 := by omega
      rw [hjk]

/-- Partition invariants of the in-place loop of `sort`: the pivot stays at
position `r`, slots left of the final `l` have lower limit strictly below the
pivot's, and slots from `l` on do not. -/
theorem partLoop_spec (arr : List Slot) (r l i : ℕ)
    (hli : l ≤ i) (hlr : l ≤ r) (hr : r = arr.length - 1) (hlen : 1 ≤ arr.length)
    (H1 : ∀ k, k < l → (arr.getD k default).lower < (arr.getD r default).lower)
    (H2 : ∀ k, l ≤ k → k < i → ¬ (arr.getD k default).lower < (arr.getD r default).lower) :
    ((partLoop arr r l i).1.getD r default = arr.getD r default)
    ∧ (∀ k, k < (partLoop arr r l i).2 →
        ((partLoop arr r l i).1.getD k default).lower < (arr.getD r default).lower)
    ∧ (∀ k, (partLoop arr r l i).2 ≤ k → k < arr.length →
        ¬ ((partLoop arr r l i).1.getD k default).lower < (arr.getD r default).lower) := by
  induction arr, r, l, i using partLoop.induct with
  | case1 arr r l i h hc ih =>
    rw [partLoop, dif_pos h, if_pos hc]
    have hir : i ≠ r := by
      intro he; rw [he] at hc; exact absurd hc (lt_irrefl _)
    have hilt : i < r := by omega
    have hllt : l < r := by omega
    have hrlen : r < arr.length := by omega
    have hpfix : (swapL arr l i).getD r default = arr.getD r default :=
      swapL_getD_other arr l i r default (by omega) (by omega)
    have H1' : ∀ k, k < l + 1 →
        ((swapL arr l i).getD k default).lower < ((swapL arr l i).getD r default).lower := by
      intro k hk
      rw [hpfix]
      rcases Nat.lt_or_ge k l with hkl | hkl
      · rw [swapL_getD_other arr l i k default (by omega) (by omega)]
        exact H1 k hkl
      · have hkeq : k = l := by omega
        rw [hkeq, swapL_getD_fst arr l i default (by omega) h]
        exact hc
    have H2' : ∀ k, l + 1 ≤ k → k < i + 1 →
        ¬ ((swapL arr l i).getD k default).lower < ((swapL arr l i).getD r default).lower := by
      intro k hk1 hk2
      rw [hpfix]
      rcases Nat.lt_or_ge k i with hki | hki
      · rw [swapL_getD_other arr l i k default (by omega) (by omega)]
        exact H2 k (by omega) hki
      · have hkeq : k = i := by omega
        rw [hkeq, swapL_getD_snd arr l i default (by omega) h]
        exact H2 l le_rfl (by omega)
    have ihres := ih (by omega) (by omega) (by rw [swapL_length]; exact hr)
      (by rw [swapL_length]; exact hlen) H1' H2'
    refine ⟨?_, ?_, ?_⟩
    · rw [ihres.1, hpfix]
    · intro k hk
      have := ihres.2.1 k hk
      rwa [hpfix] at this
    · intro k hk1 hk2
      have := ihres.2.2 k hk1 (by rwa [swapL_length])
      rwa [hpfix] at this
  | case2 arr r l i h hc ih =>
    rw [partLoop, dif_pos h, if_neg hc]
    have H2' : ∀ k, l ≤ k → k < i + 1 →
        ¬ (arr.getD k default).lower < (arr.getD r default).lower := by
      intro k hk1 hk2
      rcases Nat.lt_or_ge k i with hki | hki
      · exact H2 k hk1 hki
      · have hkeq : k = i := by omega
        rw [hkeq]
        exact hc
    exact ih (by omega) hlr hr hlen H1 H2'
  | case3 arr r l i h =>
    rw [partLoop, dif_neg h]
    refine ⟨rfl, H1, ?_⟩
    intro k hk1 hk2
    exact H2 k hk1 (by omega)

/-- Unfolding equation for the recursive case of `sort`. -/
theorem sort_eq (rands : List ℕ) (arr : List Slot) (h : ¬ arr.length < 2) :
    sort rands arr =
      (let r := arr.length - 1
       let p := rands.headD 0 % arr.length
       let arr1 := swapL arr p r
       let pres := partLoop arr1 r 0 0
       let arr3 := swapL pres.1 pres.2 r
       let leftRes := sort rands.tail (arr3.take pres.2)
       let rightRes := sort leftRes.2 (arr3.drop (pres.2 + 1))
       (leftRes.1 ++ arr3.getD pres.2 default :: rightRes.1, rightRes.2)) := by
  rw [sort, if_neg h]

theorem sort_perm (rands : List ℕ) (arr : List Slot) :
    (sort rands arr).1.Perm arr := by
  induction rands, arr using sort.induct with
  | case1 rands arr h =>
    rw [sort, if_pos h]
  | case2 rands arr h r p arr1 pres arr3 leftRes ih1 ih1x ih2 =>
    rw [sort_eq _ _ h]
    show (leftRes.1 ++ arr3.getD pres.2 default ::
      (sort leftRes.2 (arr3.drop (pres.2 + 1))).1).Perm arr
    have hr1len : arr1.length = arr.length := swapL_length _ _ _
    have hlle : pres.2 ≤ r :=
      partLoop_l_le arr1 r 0 0 le_rfl (Nat.zero_le r) (by rw [hr1len])
    have hlen3 : arr3.length = arr.length := by
      show (swapL pres.1 pres.2 r).length = arr.length
      rw [swapL_length, partLoop_length, hr1len]
    have hperm3 : arr3.Perm arr :=
      ((swapL_perm pres.1 pres.2 r).trans (partLoop_perm arr1 r 0 0)).trans
        (swapL_perm arr p r)
    have hplt : pres.2 < arr3.length := by omega
    have hdecomp : arr3.take pres.2 ++ arr3.getD pres.2 default ::
        arr3.drop (pres.2 + 1) = arr3 := by
      have hget : arr3.getD pres.2 default = arr3[pres.2] := by
        rw [List.getD_eq_getElem?_getD, List.getElem?_eq_getElem hplt]
        rfl
      rw [hget, List.getElem_cons_drop, List.take_append_drop]
    have hstep : (leftRes.1 ++ arr3.getD pres.2 default ::
        (sort leftRes.2 (arr3.drop (pres.2 + 1))).1).Perm
        (arr3.take pres.2 ++ arr3.getD pres.2 default :: arr3.drop (pres.2 + 1)) :=
      List.Perm.append ih1 (List.Perm.cons _ ih2)
    rw [hdecomp] at hstep
    exact hstep.trans hperm3

theorem sort_pairwise (rands : List ℕ) (arr : List Slot) :
    List.Pairwise (fun a b : Slot => a.lower ≤ b.lower) (sort rands arr).1 := by
  induction rands, arr using sort.induct with
  | case1 rands arr h =>
    rw [sort, if_pos h]
    show List.Pairwise _ arr
    rcases arr with _ | ⟨x, _ | ⟨y, t⟩⟩
    · exact List.Pairwise.nil
    · exact List.pairwise_singleton _ _
    · exact absurd h (by simp)
  | case2 rands arr h r p arr1 pres arr3 leftRes ih1 ih1x ih2 =>
    rw [sort_eq _ _ h]
    show List.Pairwise (fun a b : Slot => a.lower ≤ b.lower)
      (leftRes.1 ++ arr3.getD pres.2 default ::
        (sort leftRes.2 (arr3.drop (pres.2 + 1))).1)
    have hr1len : arr1.length = arr.length := swapL_length _ _ _
    have hrlen : r < arr.length := by omega
    have hlle : pres.2 ≤ r :=
      partLoop_l_le arr1 r 0 0 le_rfl (Nat.zero_le r) (by rw [hr1len])
    have hp1len : pres.1.length = arr.length := by
      show (partLoop arr1 r 0 0).1.length = arr.length
      rw [partLoop_length, hr1len]
    have hlen3 : arr3.length = arr.length := by
      show (swapL pres.1 pres.2 r).length = arr.length
      rw [swapL_length, hp1len]
    have hpres : pres = partLoop arr1 r 0 0 := rfl
    have hspec := partLoop_spec arr1 r 0 0 le_rfl (Nat.zero_le r)
      (by rw [hr1len]) (by rw [hr1len]; omega)
      (by intro k hk; omega)
      (by intro k hk1 hk2; omega)
    rw [← hpres] at hspec
    have hcenter : arr3.getD pres.2 default = arr1.getD r default := by
      show (swapL pres.1 pres.2 r).getD pres.2 default = arr1.getD r default
      rw [swapL_getD_fst pres.1 pres.2 r default (by omega) (by omega), hspec.1]
    have hlt : ∀ k, k < pres.2 →
        (arr3.getD k default).lower < (arr1.getD r default).lower := by
      intro k hk
      show ((swapL pres.1 pres.2 r).getD k default).lower < _
      rw [swapL_getD_other pres.1 pres.2 r k default (by omega) (by omega)]
      exact hspec.2.1 k hk
    have hge : ∀ k, pres.2 < k → k < arr3.length →
        ¬ (arr3.getD k default).lower < (arr1.getD r default).lower := by
      intro k hk1 hk2
      show ¬ ((swapL pres.1 pres.2 r).getD k default).lower < _
      rcases eq_or_ne k r with hkr | hkr
      · rw [hkr, swapL_getD_snd pres.1 pres.2 r default (by omega) (by omega)]
        exact hspec.2.2 pres.2 le_rfl (by rw [hr1len]; omega)
      · rw [swapL_getD_other pres.1 pres.2 r k default (by omega) hkr]
        exact hspec.2.2 k (by omega) (by rw [hr1len]; omega)
    have hmem_take : ∀ x ∈ arr3.take pres.2,
        x.lower < (arr1.getD r default).lower := by
      intro x hx
      obtain ⟨k, hk, hkx⟩ := List.getElem_of_mem hx
      have hk2 : k < pres.2 := by
        rw [List.length_take] at hk; omega
      have hk3 : k < arr3.length := by omega
      simp only [List.getElem_take] at hkx
      have hkx2 : arr3.getD k default = x := by
        rw [List.getD_eq_getElem?_getD, List.getElem?_eq_getElem hk3]
        exact hkx
      rw [← hkx2]
      exact hlt k hk2
    have hmem_drop : ∀ x ∈ arr3.drop (pres.2 + 1),
        ¬ x.lower < (arr1.getD r default).lower := by
      intro x hx
      obtain ⟨k, hk, hkx⟩ := List.getElem_of_mem hx
      rw [List.length_drop] at hk
      simp only [List.getElem_drop] at hkx
      have hk3 : pres.2 + 1 + k < arr3.length := by omega
      have hkx2 : arr3.getD (pres.2 + 1 + k) default = x := by
        rw [List.getD_eq_getElem?_getD, List.getElem?_eq_getElem hk3]
        exact hkx
      rw [← hkx2]
      exact hge (pres.2 + 1 + k) (by omega) hk3
    have hmem_left : ∀ x ∈ leftRes.1, x.lower < (arr1.getD r default).lower :=
      fun x hx => hmem_take x ((sort_perm rands.tail (arr3.take pres.2)).subset hx)
    have hmem_right : ∀ x ∈ (sort leftRes.2 (arr3.drop (pres.2 + 1))).1,
        ¬ x.lower < (arr1.getD r default).lower :=
      fun x hx => hmem_drop x ((sort_perm _ _).subset hx)
    rw [List.pairwise_append]
    refine ⟨ih1, ?_, ?_⟩
    · rw [List.pairwise_cons]
      refine ⟨?_, ih2⟩
      intro y hy
      rw [hcenter]
      exact not_lt.mp (hmem_right y hy)
    · intro x hx y hy
      have hxlt := hmem_left x hx
      rcases List.mem_cons.mp hy with rfl | hy2
      · rw [hcenter]; exact le_of_lt hxlt
      · exact le_of_lt (lt_of_lt_of_le hxlt (not_lt.mp (hmem_right y hy2)))

theorem dfsList_eq_pos (slots : List Slot) (val : ℚ) (l r : ℤ) (h : r + 1 ≤ l) :
    dfsList slots val l r = [] := by
  rw [dfsList, if_pos h]

theorem dfsList_eq_neg (slots : List Slot) (val : ℚ) (l r : ℤ) (h : ¬ r + 1 ≤ l) :
    dfsList slots val l r =
      (if (slots.getD (ceilHalf (l + r)).toNat default).lower ≤ val ∧
          val ≤ (slots.getD (ceilHalf (l + r)).toNat default).upper then
        [(slots.getD (ceilHalf (l + r)).toNat default).idx] else [])
      ++ (if (slots.getD (ceilHalf (l + r)).toNat default).lower ≤ val then
            dfsList slots val (ceilHalf (l + r) + 1) r else [])
      ++ (if val ≤ (slots.getD (ceilHalf (l + r)).toNat default).smax then
            dfsList slots val l (ceilHalf (l + r) - 1) else []) := by
  rw [dfsList, if_neg h]

theorem three_pow_add_le (a b : ℕ) : 3 ^ a + 3 ^ b ≤ 3 ^ (a + b) + 1 := by
  rcases Nat.eq_zero_or_pos a with ha | ha
  · subst ha; simp; omega
  rcases Nat.eq_zero_or_pos b with hb | hb
  · subst hb; simp
  have h2a : 2 ≤ 3 ^ a := by
    calc 2 ≤ 3 ^ 1 := by norm_num
      _ ≤ 3 ^ a := Nat.pow_le_pow_right (by norm_num) ha
  have h2b : 2 ≤ 3 ^ b := by
    calc 2 ≤ 3 ^ 1 := by norm_num
      _ ≤ 3 ^ b := Nat.pow_le_pow_right (by norm_num) hb
  have := Nat.add_le_mul h2a h2b
  rw [pow_add]
  omega

theorem three_pow_children (a b : ℕ) : 3 ^ a + 3 ^ b + 1 ≤ 3 ^ (a + b + 1) := by
  have h1 := three_pow_add_le a b
  have h2 : 3 ^ (a + b) + 2 ≤ 3 ^ (a + b + 1) := by
    have h3 : 1 ≤ 3 ^ (a + b) := Nat.one_le_two_pow.trans
      (Nat.pow_le_pow_left (by norm_num) _)
    rw [pow_succ]
    omega
  omega

theorem stackMeasure_cons (p : ℤ × ℤ) (rest : List (ℤ × ℤ)) :
    stackMeasure (p :: rest) = 3 ^ (p.2 + 1 - p.1).toNat + stackMeasure rest := by
  simp [stackMeasure]

/-- The stack loop of `Including` computes, entry by entry, the traversal
lists described by `dfsList`: popping an entry appends that entry's traversal
output before the remaining entries are processed. -/
theorem includingLoop_eq_dfsList (slots : List Slot) (val : ℚ) :
    ∀ (fuel : ℕ) (stack : List (ℤ × ℤ)) (acc : List ℕ),
      (∀ p ∈ stack, p.1 ≤ p.2 + 1) → stackMeasure stack < fuel →
      includingLoop slots val fuel stack acc
        = acc ++ (stack.map fun p => dfsList slots val p.1 p.2).flatten := by
  intro fuel
  induction fuel with
  | zero =>
    intro stack acc hv hm
    exact absurd hm (Nat.not_lt_zero _)
  | succ fuel ih =>
    intro stack acc hv hm
    rcases stack with _ | ⟨⟨l, r⟩, rest⟩
    · simp [includingLoop]
    · have hvl : l ≤ r + 1 := hv (l, r) (List.mem_cons_self _ _)
      have hvrest : ∀ p ∈ rest, p.1 ≤ p.2 + 1 :=
        fun p hp => hv p (List.mem_cons_of_mem _ hp)
      rw [stackMeasure_cons] at hm
      by_cases hleq : l = r + 1
      · have hsz : ((l, r).2 + 1 - (l, r).1).toNat = 0 := by simp; omega
        rw [hsz] at hm
        simp only [includingLoop, if_pos hleq]
        rw [ih rest acc hvrest (by omega)]
        simp only [List.map_cons, List.flatten_cons]
        rw [dfsList_eq_pos slots val l r (le_of_eq hleq.symm)]
        simp
      · have hlr : l ≤ r := by omega
        have hc := ceilHalf_bounds hlr
        have hexp : ((l, r).2 + 1 - (l, r).1).toNat
            = (r - ceilHalf (l + r)).toNat + (ceilHalf (l + r) - l).toNat + 1 := by
          simp; omega
        rw [hexp] at hm
        have hmb := three_pow_children (r - ceilHalf (l + r)).toNat
          (ceilHalf (l + r) - l).toNat
        simp only [includingLoop, if_neg hleq]
        simp only [List.map_cons, List.flatten_cons]
        rw [dfsList_eq_neg slots val l r (by omega)]
        by_cases h1 : (slots.getD (ceilHalf (l + r)).toNat default).lower ≤ val
        · by_cases h3 : val ≤ (slots.getD (ceilHalf (l + r)).toNat default).smax
          · have hst : ∀ p ∈ (ceilHalf (l + r) + 1, r) :: (l, ceilHalf (l + r) - 1) :: rest,
                p.1 ≤ p.2 + 1 := by
              intro p hp
              rcases List.mem_cons.mp hp with rfl | hp2
              · simp; omega
              rcases List.mem_cons.mp hp2 with rfl | hp3
              · simp; omega
              · exact hvrest p hp3
            have hmm : stackMeasure ((ceilHalf (l + r) + 1, r) ::
                (l, ceilHalf (l + r) - 1) :: rest) < fuel := by
              rw [stackMeasure_cons, stackMeasure_cons]
              have he1 : ((r : ℤ) + 1 - (ceilHalf (l + r) + 1)).toNat
                  = (r - ceilHalf (l + r)).toNat := by omega
              have he2 : ((ceilHalf (l + r) - 1 : ℤ) + 1 - l).toNat
                  = (ceilHalf (l + r) - l).toNat := by omega
              simp only [he1, he2]
              omega
            by_cases h2 : val ≤ (slots.getD (ceilHalf (l + r)).toNat default).upper
            · simp only [if_pos h1, if_pos h3, if_pos h2, if_pos (And.intro h1 h2)]
              rw [ih _ _ hst hmm]
              simp [List.append_assoc]
            · simp only [if_pos h1, if_pos h3, if_neg h2,
                if_neg (show ¬((slots.getD (ceilHalf (l + r)).toNat default).lower ≤ val
                  ∧ val ≤ (slots.getD (ceilHalf (l + r)).toNat default).upper) from
                  fun hand => h2 hand.2)]
              rw [ih _ _ hst hmm]
              simp [List.append_assoc]
          · have hst : ∀ p ∈ (ceilHalf (l + r) + 1, r) :: rest, p.1 ≤ p.2 + 1 := by
              intro p hp
              rcases List.mem_cons.mp hp with rfl | hp2
              · simp; omega
              · exact hvrest p hp2
            have hmm : stackMeasure ((ceilHalf (l + r) + 1, r) :: rest) < fuel := by
              rw [stackMeasure_cons]
              have he1 : ((r : ℤ) + 1 - (ceilHalf (l + r) + 1)).toNat
                  = (r - ceilHalf (l + r)).toNat := by omega
              simp only [he1]
              have hp1 : 1 ≤ 3 ^ (ceilHalf (l + r) - l).toNat :=
                Nat.one_le_two_pow.trans (Nat.pow_le_pow_left (by norm_num) _)
              omega
            by_cases h2 : val ≤ (slots.getD (ceilHalf (l + r)).toNat default).upper
            · simp only [if_pos h1, if_neg h3, if_pos h2, if_pos (And.intro h1 h2)]
              rw [ih _ _ hst hmm]
              simp [List.append_assoc]
            · simp only [if_pos h1, if_neg h3, if_neg h2,
                if_neg (show ¬((slots.getD (ceilHalf (l + r)).toNat default).lower ≤ val
                  ∧ val ≤ (slots.getD (ceilHalf (l + r)).toNat default).upper) from
                  fun hand => h2 hand.2)]
              rw [ih _ _ hst hmm]
              simp [List.append_assoc]
        · by_cases h3 : val ≤ (slots.getD (ceilHalf (l + r)).toNat default).smax
          · have hst : ∀ p ∈ (l, ceilHalf (l + r) - 1) :: rest, p.1 ≤ p.2 + 1 := by
              intro p hp
              rcases List.mem_cons.mp hp with rfl | hp2
              · simp; omega
              · exact hvrest p hp2
            have hmm : stackMeasure ((l, ceilHalf (l + r) - 1) :: rest) < fuel := by
              rw [stackMeasure_cons]
              have he2 : ((ceilHalf (l + r) - 1 : ℤ) + 1 - l).toNat
                  = (ceilHalf (l + r) - l).toNat := by omega
              simp only [he2]
              have hp1 : 1 ≤ 3 ^ (r - ceilHalf (l + r)).toNat :=
                Nat.one_le_two_pow.trans (Nat.pow_le_pow_left (by norm_num) _)
              omega
            simp only [if_neg h1, if_pos h3,
              if_neg (show ¬((slots.getD (ceilHalf (l + r)).toNat default).lower ≤ val
                ∧ val ≤ (slots.getD (ceilHalf (l + r)).toNat default).upper) from
                fun hand => h1 hand.1)]
            rw [ih _ _ hst hmm]
            simp [List.append_assoc]
          · have hmm : stackMeasure rest < fuel := by
              have hp1 : 1 ≤ 3 ^ (r - ceilHalf (l + r)).toNat :=
                Nat.one_le_two_pow.trans (Nat.pow_le_pow_left (by norm_num) _)
              have hp2 : 1 ≤ 3 ^ (ceilHalf (l + r) - l).toNat :=
                Nat.one_le_two_pow.trans (Nat.pow_le_pow_left (by norm_num) _)
              omega
            simp only [if_neg h1, if_neg h3,
              if_neg (show ¬((slots.getD (ceilHalf (l + r)).toNat default).lower ≤ val
                ∧ val ≤ (slots.getD (ceilHalf (l + r)).toNat default).upper) from
                fun hand => h1 hand.1)]
            rw [ih rest acc hvrest hmm]
            simp

/-- On any stack of well-formed ranges inside `[0, n-1]`, the bounds-checked
loop never fails and agrees with the unchecked loop: every `limits` and
`indexes` access of the query is in bounds. -/
theorem includingLoopChecked_eq (slots : List Slot) (val : ℚ) :
    ∀ (fuel : ℕ) (stack : List (ℤ × ℤ)) (acc : List ℕ),
      (∀ p ∈ stack, 0 ≤ p.1 ∧ p.2 ≤ (slots.length : ℤ) - 1 ∧ p.1 ≤ p.2 + 1) →
      stackMeasure stack < fuel →
      includingLoopChecked slots val fuel stack acc
        = some (includingLoop slots val fuel stack acc) := by
  intro fuel
  induction fuel with
  | zero =>
    intro stack acc hv hm
    exact absurd hm (Nat.not_lt_zero _)
  | succ fuel ih =>
    intro stack acc hv hm
    rcases stack with _ | ⟨⟨l, r⟩, rest⟩
    · simp [includingLoop, includingLoopChecked]
    · have hvl := hv (l, r) (List.mem_cons_self _ _)
      have hvrest : ∀ p ∈ rest, 0 ≤ p.1 ∧ p.2 ≤ (slots.length : ℤ) - 1 ∧ p.1 ≤ p.2 + 1 :=
        fun p hp => hv p (List.mem_cons_of_mem _ hp)
      rw [stackMeasure_cons] at hm
      by_cases hleq : l = r + 1
      · have hsz : ((l, r).2 + 1 - (l, r).1).toNat = 0 := by
          simp only
          omega
        rw [hsz] at hm
        simp only [includingLoop, includingLoopChecked, if_pos hleq]
        exact ih rest acc hvrest (by omega)
      · have hlr : l ≤ r := by
          have := hvl.2.2
          omega
        have hc := ceilHalf_bounds hlr
        have hcb : 0 ≤ ceilHalf (l + r) ∧ ceilHalf (l + r) < (slots.length : ℤ) := by
          constructor
          · have := hvl.1; omega
          · have := hvl.2.1; omega
        have hexp : ((l, r).2 + 1 - (l, r).1).toNat
            = (r - ceilHalf (l + r)).toNat + (ceilHalf (l + r) - l).toNat + 1 := by
          simp only
          omega
        rw [hexp] at hm
        have hmb := three_pow_children (r - ceilHalf (l + r)).toNat
          (ceilHalf (l + r) - l).toNat
        have hone : ∀ m : ℕ, 1 ≤ 3 ^ m := fun m =>
          Nat.one_le_two_pow.trans (Nat.pow_le_pow_left (by norm_num) _)
        simp only [includingLoop, includingLoopChecked, if_neg hleq, if_pos hcb]
        by_cases h1 : (slots.getD (ceilHalf (l + r)).toNat default).lower ≤ val
        · by_cases h3 : val ≤ (slots.getD (ceilHalf (l + r)).toNat default).smax
          · have hst : ∀ p ∈ (ceilHalf (l + r) + 1, r) :: (l, ceilHalf (l + r) - 1) :: rest,
                0 ≤ p.1 ∧ p.2 ≤ (slots.length : ℤ) - 1 ∧ p.1 ≤ p.2 + 1 := by
              intro p hp
              rcases List.mem_cons.mp hp with rfl | hp2
              · refine ⟨by omega, by have := hvl.2.1; simp; omega, by simp; omega⟩
              rcases List.mem_cons.mp hp2 with rfl | hp3
              · refine ⟨by have := hvl.1; simp; omega, by have := hvl.2.1; simp; omega,
                  by simp; omega⟩
              · exact hvrest p hp3
            have hmm : stackMeasure ((ceilHalf (l + r) + 1, r) ::
                (l, ceilHalf (l + r) - 1) :: rest) < fuel := by
              rw [stackMeasure_cons, stackMeasure_cons]
              have he1 : ((r : ℤ) + 1 - (ceilHalf (l + r) + 1)).toNat
                  = (r - ceilHalf (l + r)).toNat := by omega
              have he2 : ((ceilHalf (l + r) - 1 : ℤ) + 1 - l).toNat
                  = (ceilHalf (l + r) - l).toNat := by omega
              simp only [he1, he2]
              omega
            by_cases h2 : val ≤ (slots.getD (ceilHalf (l + r)).toNat default).upper
            · simp only [if_pos h1, if_pos h3, if_pos h2]
              exact ih _ _ hst hmm
            · simp only [if_pos h1, if_pos h3, if_neg h2]
              exact ih _ _ hst hmm
          · have hst : ∀ p ∈ (ceilHalf (l + r) + 1, r) :: rest,
                0 ≤ p.1 ∧ p.2 ≤ (slots.length : ℤ) - 1 ∧ p.1 ≤ p.2 + 1 := by
              intro p hp
              rcases List.mem_cons.mp hp with rfl | hp2
              · refine ⟨by omega, by have := hvl.2.1; simp; omega, by simp; omega⟩
              · exact hvrest p hp2
            have hmm : stackMeasure ((ceilHalf (l + r) + 1, r) :: rest) < fuel := by
              rw [stackMeasure_cons]
              have he1 : ((r : ℤ) + 1 - (ceilHalf (l + r) + 1)).toNat
                  = (r - ceilHalf (l + r)).toNat := by omega
              simp only [he1]
              have := hone (ceilHalf (l + r) - l).toNat
              omega
            by_cases h2 : val ≤ (slots.getD (ceilHalf (l + r)).toNat default).upper
            · simp only [if_pos h1, if_neg h3, if_pos h2]
              exact ih _ _ hst hmm
            · simp only [if_pos h1, if_neg h3, if_neg h2]
              exact ih _ _ hst hmm
        · by_cases h3 : val ≤ (slots.getD (ceilHalf (l + r)).toNat default).smax
          · have hst : ∀ p ∈ (l, ceilHalf (l + r) - 1) :: rest,
                0 ≤ p.1 ∧ p.2 ≤ (slots.length : ℤ) - 1 ∧ p.1 ≤ p.2 + 1 := by
              intro p hp
              rcases List.mem_cons.mp hp with rfl | hp2
              · refine ⟨by have := hvl.1; simp; omega, by have := hvl.2.1; simp; omega,
                  by simp; omega⟩
              · exact hvrest p hp2
            have hmm : stackMeasure ((l, ceilHalf (l + r) - 1) :: rest) < fuel := by
              rw [stackMeasure_cons]
              have he2 : ((ceilHalf (l + r) - 1 : ℤ) + 1 - l).toNat
                  = (ceilHalf (l + r) - l).toNat := by omega
              simp only [he2]
              have := hone (r - ceilHalf (l + r)).toNat
              omega
            simp only [if_neg h1, if_pos h3]
            exact ih _ _ hst hmm
          · have hmm : stackMeasure rest < fuel := by
              have := hone (r - ceilHalf (l + r)).toNat
              have := hone (ceilHalf (l + r) - l).toNat
              omega
            simp only [if_neg h1, if_neg h3]
            exact ih rest acc hvrest hmm

/-- The query equals the recursive traversal of the full range. -/
theorem Including_eq_dfsList (slots : List Slot) (val : ℚ) :
    Including slots val = dfsList slots val 0 ((slots.length : ℤ) - 1) := by
  unfold Including
  rw [includingLoop_eq_dfsList slots val (3 ^ slots.length + 1)
    [(0, (slots.length : ℤ) - 1)] []
    (by
      intro p hp
      rcases List.mem_singleton.mp hp with rfl
      simp)
    (by
      have hsz : (((slots.length : ℤ) - 1) + 1 - 0).toNat = slots.length := by omega
      simp [stackMeasure, hsz])]
  simp

theorem intRange_empty (l r : ℤ) (h : r < l) : intRange l r = [] := by
  unfold intRange
  have h0 : (r + 1 - l).toNat = 0 := by omega
  rw [h0]
  simp

theorem mem_intRange {l r j : ℤ} : j ∈ intRange l r ↔ l ≤ j ∧ j ≤ r := by
  unfold intRange
  simp only [List.mem_map, List.mem_range]
  constructor
  · rintro ⟨t, ht, rfl⟩
    omega
  · rintro ⟨h1, h2⟩
    exact ⟨(j - l).toNat, by omega, by omega⟩

theorem intRange_split {l r c : ℤ} (h1 : l ≤ c) (h2 : c ≤ r) :
    intRange l r = intRange l (c - 1) ++ c :: intRange (c + 1) r := by
  unfold intRange
  have ha : (c - 1 + 1 - l).toNat = (c - l).toNat := by omega
  have hb : (r + 1 - (c + 1)).toNat = (r - c).toNat := by omega
  have hs : (r + 1 - l).toNat = ((c - l).toNat + 1) + (r - c).toNat := by omega
  rw [ha, hb, hs, List.range_add, List.map_append, List.range_succ,
    List.map_append, List.map_map, List.append_assoc]
  congr 1
  simp only [List.map_cons, List.map_nil, List.singleton_append]
  congr 1
  · omega
  · apply List.map_congr_left
    intro t ht
    simp only [Function.comp_apply]
    push_cast
    omega

theorem matchIdxs_eq_nil_of_lt (slots : List Slot) (val : ℚ) {l r : ℤ}
    (h : r < l) : matchIdxs slots val l r = [] := by
  unfold matchIdxs
  rw [intRange_empty _ _ h]
  simp

theorem matchIdxs_eq_nil (slots : List Slot) (val : ℚ) (l r : ℤ)
    (h : ∀ j, l ≤ j → j ≤ r →
      ¬ ((slotAt slots j).lower ≤ val ∧ val ≤ (slotAt slots j).upper)) :
    matchIdxs slots val l r = [] := by
  unfold matchIdxs
  have hf : (intRange l r).filter (fun j =>
      decide ((slotAt slots j).lower ≤ val ∧ val ≤ (slotAt slots j).upper)) = [] := by
    rw [List.filter_eq_nil_iff]
    intro j hj
    have hm := mem_intRange.mp hj
    simpa using h j hm.1 hm.2
  rw [hf]
  rfl

theorem matchIdxs_split (slots : List Slot) (val : ℚ) {l r c : ℤ}
    (h1 : l ≤ c) (h2 : c ≤ r) :
    matchIdxs slots val l r = matchIdxs slots val l (c - 1)
      ++ (if (slotAt slots c).lower ≤ val ∧ val ≤ (slotAt slots c).upper
          then [(slotAt slots c).idx] else [])
      ++ matchIdxs slots val (c + 1) r := by
  unfold matchIdxs
  rw [intRange_split h1 h2]
  rw [List.filter_append, List.map_append, List.filter_cons]
  by_cases hp : (slotAt slots c).lower ≤ val ∧ val ≤ (slotAt slots c).upper
  · simp [hp]
  · simp [hp]

/-- The pruned traversal collects exactly the matching positions of its
range: given sortedness of the lower limits and the augmentation invariant,
`dfsList` is a permutation of the brute-force scan of `[l, r]`. -/
theorem dfsList_perm_matchIdxs (slots : List Slot) (val : ℚ) :
    ∀ (n : ℕ) (l r : ℤ), (r + 1 - l).toNat ≤ n →
      0 ≤ l → r ≤ (slots.length : ℤ) - 1 →
      (∀ i j : ℤ, 0 ≤ i → i ≤ j → j ≤ (slots.length : ℤ) - 1 →
        (slotAt slots i).lower ≤ (slotAt slots j).lower) →
      SmaxOK (slotAt slots) l r →
      (dfsList slots val l r).Perm (matchIdxs slots val l r) := by
  intro n
  induction n with
  | zero =>
    intro l r hn hl hr mono hs
    rw [dfsList_eq_pos _ _ _ _ (by omega), matchIdxs_eq_nil_of_lt _ _ (by omega)]
  | succ n ih =>
    intro l r hn hl hr mono hs
    by_cases hg : r + 1 ≤ l
    · rw [dfsList_eq_pos _ _ _ _ hg, matchIdxs_eq_nil_of_lt _ _ (by omega)]
    · have hlr : l ≤ r := by omega
      have hc := ceilHalf_bounds hlr
      rw [SmaxOK, if_neg hg] at hs
      obtain ⟨hsm, hsL, hsR⟩ := hs
      rw [dfsList_eq_neg _ _ _ _ hg, matchIdxs_split slots val hc.1 hc.2]
      simp only [slotAt]
      by_cases h1 : (slots.getD (ceilHalf (l + r)).toNat default).lower ≤ val
      · by_cases h3 : val ≤ (slots.getD (ceilHalf (l + r)).toNat default).smax
        · have ihL := ih l (ceilHalf (l + r) - 1) (by omega) hl (by omega) mono hsL
          have ihR := ih (ceilHalf (l + r) + 1) r (by omega) (by omega) hr mono hsR
          simp only [if_pos h1, if_pos h3]
          refine (List.Perm.append (List.Perm.append (List.Perm.refl _) ihR) ihL).trans ?_
          rw [List.append_assoc (matchIdxs slots val l (ceilHalf (l + r) - 1))]
          exact List.perm_append_comm
        · have ihR := ih (ceilHalf (l + r) + 1) r (by omega) (by omega) hr mono hsR
          have hLnil : matchIdxs slots val l (ceilHalf (l + r) - 1) = [] := by
            apply matchIdxs_eq_nil
            intro j hj1 hj2 hcontra
            apply h3
            have hup := hsm j hj1 (by omega)
            exact le_trans hcontra.2 hup
          simp only [if_pos h1, if_neg h3, hLnil, List.append_nil, List.nil_append]
          exact List.Perm.append (List.Perm.refl _) ihR
      · have hRnil : matchIdxs slots val (ceilHalf (l + r) + 1) r = [] := by
          apply matchIdxs_eq_nil
          intro j hj1 hj2 hcontra
          apply h1
          have hlow := mono (ceilHalf (l + r)) j (by omega) (by omega) (by omega)
          exact le_trans hlow hcontra.1
        have hmid : ¬ ((slots.getD (ceilHalf (l + r)).toNat default).lower ≤ val
            ∧ val ≤ (slots.getD (ceilHalf (l + r)).toNat default).upper) :=
          fun hand => h1 hand.1
        by_cases h3 : val ≤ (slots.getD (ceilHalf (l + r)).toNat default).smax
        · have ihL := ih l (ceilHalf (l + r) - 1) (by omega) hl (by omega) mono hsL
          simp only [if_neg h1, if_pos h3, if_neg hmid, hRnil, List.append_nil,
            List.nil_append]
          exact ihL
        · have hLnil : matchIdxs slots val l (ceilHalf (l + r) - 1) = [] := by
            apply matchIdxs_eq_nil
            intro j hj1 hj2 hcontra
            apply h3
            have hup := hsm j hj1 (by omega)
            exact le_trans hcontra.2 hup
          simp only [if_neg h1, if_neg h3, if_neg hmid, hRnil, hLnil,
            List.append_nil, List.nil_append]
          exact List.Perm.refl []

/-- Position-indexed filter-map over a list equals the direct filter-map. -/
theorem range_filter_map_getD {α β : Type} (d : α) (p : α → Bool) (f : α → β) :
    ∀ xs : List α,
      ((List.range xs.length).filter fun t => p (xs.getD t d)).map
          (fun t => f (xs.getD t d))
        = (xs.filter p).map f := by
  intro xs
  induction xs with
  | nil => rfl
  | cons a t ih =>
    rw [List.length_cons, List.range_succ_eq_map, List.filter_cons]
    simp only [List.getD_cons_zero]
    have hcomp : ((fun t' => p ((a :: t).getD t' d)) ∘ Nat.succ)
        = fun t' => p (t.getD t' d) := by
      funext t'
      simp [List.getD_cons_succ]
    have hcomp2 : ((fun t' => f ((a :: t).getD t' d)) ∘ Nat.succ)
        = fun t' => f (t.getD t' d) := by
      funext t'
      simp [List.getD_cons_succ]
    by_cases hp : p a
    · rw [if_pos hp, List.filter_cons, if_pos hp]
      rw [List.filter_map]
      simp only [List.map_cons, List.getD_cons_zero]
      congr 1
      rw [List.map_map, hcomp, hcomp2]
      exact ih
    · rw [if_neg hp, List.filter_cons, if_neg hp]
      rw [List.filter_map, List.map_map, hcomp, hcomp2]
      exact ih

/-- The brute-force scan over the whole slot range equals a filter-map over
the slot list itself. -/
theorem matchIdxs_full (slots : List Slot) (val : ℚ) :
    matchIdxs slots val 0 ((slots.length : ℤ) - 1)
      = (slots.filter fun s => decide (s.lower ≤ val ∧ val ≤ s.upper)).map
          (fun s => s.idx) := by
  unfold matchIdxs
  have hrange : intRange 0 ((slots.length : ℤ) - 1)
      = (List.range slots.length).map fun t : ℕ => (t : ℤ) := by
    unfold intRange
    have hn : (((slots.length : ℤ) - 1) + 1 - 0).toNat = slots.length := by omega
    rw [hn]
    apply List.map_congr_left
    intro t ht
    omega
  rw [hrange, List.filter_map, List.map_map]
  have hcomp : ((fun j : ℤ => decide ((slotAt slots j).lower ≤ val
      ∧ val ≤ (slotAt slots j).upper)) ∘ fun t : ℕ => (t : ℤ))
      = fun t : ℕ => decide ((slots.getD t default).lower ≤ val
          ∧ val ≤ (slots.getD t default).upper) := by
    funext t
    simp [slotAt]
  have hcomp2 : ((fun j : ℤ => (slotAt slots j).idx) ∘ fun t : ℕ => (t : ℤ))
      = fun t : ℕ => (slots.getD t default).idx := by
    funext t
    simp [slotAt]
  rw [hcomp, hcomp2]
  exact range_filter_map_getD default
    (fun s => decide (s.lower ≤ val ∧ val ≤ s.upper)) (fun s => s.idx) slots

/-- Filtering on the interval limits and reading the original positions is
invariant under changing the smax cells (position by position). -/
theorem filter_map_idx_eq_of_fields (val : ℚ) :
    ∀ (l₁ l₂ : List Slot), l₁.length = l₂.length →
      (∀ k : ℕ, (l₁.getD k default).lower = (l₂.getD k default).lower
        ∧ (l₁.getD k default).upper = (l₂.getD k default).upper
        ∧ (l₁.getD k default).idx = (l₂.getD k default).idx) →
      ((l₁.filter fun s => decide (s.lower ≤ val ∧ val ≤ s.upper)).map fun s => s.idx)
        = ((l₂.filter fun s => decide (s.lower ≤ val ∧ val ≤ s.upper)).map fun s => s.idx) := by
  intro l₁
  induction l₁ with
  | nil =>
    intro l₂ hlen _
    cases l₂ with
    | nil => rfl
    | cons b u => simp at hlen
  | cons a t ih =>
    intro l₂ hlen hf
    cases l₂ with
    | nil => simp at hlen
    | cons b u =>
      have h0 := hf 0
      simp only [List.getD_cons_zero] at h0
      have htail : ∀ k : ℕ, (t.getD k default).lower = (u.getD k default).lower
          ∧ (t.getD k default).upper = (u.getD k default).upper
          ∧ (t.getD k default).idx = (u.getD k default).idx := by
        intro k
        have := hf (k + 1)
        simpa only [List.getD_cons_succ] using this
      have hlen2 : t.length = u.length := by simpa using hlen
      rw [List.filter_cons, List.filter_cons]
      by_cases hpa : a.lower ≤ val ∧ val ≤ a.upper
      · have hpb : b.lower ≤ val ∧ val ≤ b.upper := by
          rw [← h0.1, ← h0.2.1]
          exact hpa
        rw [if_pos (by simpa using hpa), if_pos (by simpa using hpb)]
        simp only [List.map_cons]
        rw [h0.2.2, ih u hlen2 htail]
      · have hpb : ¬ (b.lower ≤ val ∧ val ≤ b.upper) := by
          rw [← h0.1, ← h0.2.1]
          exact hpa
        rw [if_neg (by simpa using hpa), if_neg (by simpa using hpb)]
        exact ih u hlen2 htail

theorem initSlots_length (bounds : List (ℚ × ℚ)) :
    (initSlots bounds).length = bounds.length := by
  simp [initSlots]

theorem buildTree_length (rands : List ℕ) (bounds : List (ℚ × ℚ)) :
    (buildTree rands bounds).length = bounds.length := by
  unfold buildTree
  rw [augment_length, (sort_perm rands (initSlots bounds)).length_eq,
    initSlots_length]

/-- Lower limits of the built tree are monotone in the slot position. -/
theorem buildTree_mono (rands : List ℕ) (bounds : List (ℚ × ℚ)) :
    ∀ i j : ℤ, 0 ≤ i → i ≤ j → j ≤ ((buildTree rands bounds).length : ℤ) - 1 →
      (slotAt (buildTree rands bounds) i).lower
        ≤ (slotAt (buildTree rands bounds) j).lower := by
  intro i j hi hij hj
  have hb : buildTree rands bounds = augment ((sort rands (initSlots bounds)).1) := rfl
  have hfields := augment_getD_fields ((sort rands (initSlots bounds)).1)
  have hlen : (buildTree rands bounds).length
      = (sort rands (initSlots bounds)).1.length := by
    rw [hb, augment_length]
  unfold slotAt
  rw [hb, (hfields i.toNat).1, (hfields j.toNat).1]
  rcases eq_or_lt_of_le hij with heq | hlt
  · rw [heq]
  · have hpw := sort_pairwise rands (initSlots bounds)
    have hjlen : j.toNat < (sort rands (initSlots bounds)).1.length := by
      rw [← hlen]; omega
    have hilen : i.toNat < (sort rands (initSlots bounds)).1.length := by omega
    have hij2 : i.toNat < j.toNat := by omega
    have := (List.pairwise_iff_getElem.mp hpw) i.toNat j.toNat hilen hjlen hij2
    rw [List.getD_eq_getElem?_getD, List.getElem?_eq_getElem hilen,
      List.getD_eq_getElem?_getD, List.getElem?_eq_getElem hjlen]
    exact this

/-- The augmentation invariant holds on the built tree. -/
theorem buildTree_smaxOK (rands : List ℕ) (bounds : List (ℚ × ℚ)) :
    SmaxOK (slotAt (buildTree rands bounds)) 0
      (((buildTree rands bounds).length : ℤ) - 1) := by
  have h := augment_smaxOK ((sort rands (initSlots bounds)).1)
  have hlen : (buildTree rands bounds).length
      = (sort rands (initSlots bounds)).1.length := by
    unfold buildTree
    rw [augment_length]
  rw [hlen]
  exact h

/-- Master correctness lemma: on any built tree (any pivot choices), the
query output is a permutation of the brute-force scan of the original
input. -/
theorem Including_perm_brute (rands : List ℕ) (bounds : List (ℚ × ℚ)) (val : ℚ) :
    (Including (buildTree rands bounds) val).Perm (bruteIncluding bounds val) := by
  have h1 := Including_eq_dfsList (buildTree rands bounds) val
  have h2 := dfsList_perm_matchIdxs (buildTree rands bounds) val
    ((((buildTree rands bounds).length : ℤ) - 1) + 1 - 0).toNat 0
    (((buildTree rands bounds).length : ℤ) - 1) le_rfl le_rfl le_rfl
    (buildTree_mono rands bounds) (buildTree_smaxOK rands bounds)
  have h3 := matchIdxs_full (buildTree rands bounds) val
  have h4 : (((buildTree rands bounds).filter fun s =>
        decide (s.lower ≤ val ∧ val ≤ s.upper)).map fun s => s.idx)
      = (((sort rands (initSlots bounds)).1.filter fun s =>
          decide (s.lower ≤ val ∧ val ≤ s.upper)).map fun s => s.idx) := by
    apply filter_map_idx_eq_of_fields val
    · exact augment_length _
    · exact augment_getD_fields _
  have h5 : ((((sort rands (initSlots bounds)).1.filter fun s =>
        decide (s.lower ≤ val ∧ val ≤ s.upper)).map fun s => s.idx)).Perm
      (((initSlots bounds).filter fun s =>
        decide (s.lower ≤ val ∧ val ≤ s.upper)).map fun s => s.idx) :=
    ((sort_perm rands (initSlots bounds)).filter _).map _
  have h6 : (((initSlots bounds).filter fun s =>
        decide (s.lower ≤ val ∧ val ≤ s.upper)).map fun s => s.idx)
      = bruteIncluding bounds val := by
    unfold initSlots bruteIncluding
    rw [List.filter_map, List.map_map]
    have hpred : ((fun s : Slot => decide (s.lower ≤ val ∧ val ≤ s.upper)) ∘ fun i =>
        ({ lower := (bounds.getD i (0, 0)).1, upper := (bounds.getD i (0, 0)).2,
            smax := 0, idx := i } : Slot))
        = fun i => decide ((bounds.getD i (0, 0)).1 ≤ val
            ∧ val ≤ (bounds.getD i (0, 0)).2) := rfl
    have hidx : ((fun s : Slot => s.idx) ∘ fun i =>
        ({ lower := (bounds.getD i (0, 0)).1, upper := (bounds.getD i (0, 0)).2,
            smax := 0, idx := i } : Slot)) = fun i : ℕ => i := rfl
    rw [hpred, hidx, List.map_id']
  rw [h1]
  have e2 := h2
  rw [h3, h4] at e2
  have e3 := e2.trans h5
  rw [h6] at e3
  exact e3

/-- Modelled from the spec's words for the optimized augmentation variant:
instead of scanning the whole range, "combine `subtreeMax[left_center]`,
`upper[center]`, `subtreeMax[right_center]`" — the maximum of the center's
own upper limit and the already-computed smax cells of the existing child
centers (a child center is the slot `len >> 1` of the child sub-slice). -/
def augmentOpt (slots : List Slot) : List Slot :=
  if slots.length < 1 then slots
  else
    let r := slots.length >>> 1
    let leftA := augmentOpt (slots.take r)
    let rightA := augmentOpt (slots.drop (r + 1))
    let s := slots.getD r default
    let m1 := if 1 ≤ leftA.length then
        max s.upper ((leftA.getD (leftA.length >>> 1) default).smax)
      else s.upper
    let mx := if 1 ≤ rightA.length then
        max m1 ((rightA.getD (rightA.length >>> 1) default).smax)
      else m1
    leftA ++ { s with smax := mx } :: rightA
termination_by slots.length
decreasing_by
  all_goals simp only [List.length_take, List.length_drop]
  all_goals have _h2 : slots.length >>> 1 = slots.length / 2 := shiftRight_one_eq _
  all_goals omega

theorem augmentOpt_length (xs : List Slot) : (augmentOpt xs).length = xs.length := by
  induction xs using augmentOpt.induct with
  | case1 xs h => rw [augmentOpt, if_pos h]
  | case2 xs h r ih1 ih2 =>
    rw [augmentOpt, if_neg h]
    simp only [List.length_append, List.length_cons]
    rw [ih1, ih2]
    simp only [List.length_take, List.length_drop]
    have hr : xs.length >>> 1 = xs.length / 2 := shiftRight_one_eq _
    omega

/-- Unfolding equation for the recursive case of `augmentOpt`. -/
theorem augmentOpt_eq (xs : List Slot) (h : ¬ xs.length < 1) :
    augmentOpt xs = augmentOpt (xs.take (xs.length >>> 1)) ++
      { xs.getD (xs.length >>> 1) default with smax :=
          (if 1 ≤ (augmentOpt (xs.drop (xs.length >>> 1 + 1))).length then
            max (if 1 ≤ (augmentOpt (xs.take (xs.length >>> 1))).length then
                max (xs.getD (xs.length >>> 1) default).upper
                  ((augmentOpt (xs.take (xs.length >>> 1))).getD
                    ((augmentOpt (xs.take (xs.length >>> 1))).length >>> 1) default).smax
              else (xs.getD (xs.length >>> 1) default).upper)
              ((augmentOpt (xs.drop (xs.length >>> 1 + 1))).getD
                ((augmentOpt (xs.drop (xs.length >>> 1 + 1))).length >>> 1) default).smax
          else (if 1 ≤ (augmentOpt (xs.take (xs.length >>> 1))).length then
              max (xs.getD (xs.length >>> 1) default).upper
                ((augmentOpt (xs.take (xs.length >>> 1))).getD
                  ((augmentOpt (xs.take (xs.length >>> 1))).length >>> 1) default).smax
            else (xs.getD (xs.length >>> 1) default).upper)) } ::
        augmentOpt (xs.drop (xs.length >>> 1 + 1)) := by
  rw [augmentOpt, if_neg h]

/-- Clamping of the smax cell at `0`: composing the optimized augmentation
with this map reproduces the source's `max := 0.0` initialization. -/
def clampSmax (s : Slot) : Slot := { s with smax := max 0 s.smax }

theorem foldlMax_max : ∀ (A : List Slot) (i j : ℚ),
    A.foldl (fun m s => max m s.upper) (max i j)
      = max i (A.foldl (fun m s => max m s.upper) j) := by
  intro A
  induction A with
  | nil => intro i j; rfl
  | cons a t ih =>
    intro i j
    simp only [List.foldl_cons]
    rw [max_assoc]
    exact ih i (max j a.upper)

theorem foldlMax_ge_init : ∀ (A : List Slot) (i : ℚ),
    i ≤ A.foldl (fun m s => max m s.upper) i := by
  intro A
  induction A with
  | nil => intro i; exact le_rfl
  | cons a t ih =>
    intro i
    simp only [List.foldl_cons]
    exact le_trans (le_max_left _ _) (ih _)

theorem foldlMax_init_nonneg (B : List Slot) (i : ℚ) (hi : 0 ≤ i) :
    B.foldl (fun m s => max m s.upper) i
      = max i (B.foldl (fun m s => max m s.upper) 0) := by
  have h1 : i = max i 0 := (max_eq_left hi).symm
  conv_lhs => rw [h1]
  exact foldlMax_max B i 0

/-- Scanning the whole slice for the maximum upper limit decomposes along
the center slot. -/
theorem maxUpper_decomp (xs : List Slot) (h : ¬ xs.length < 1) :
    maxUpper xs = max (max (maxUpper (xs.take (xs.length >>> 1)))
        ((xs.getD (xs.length >>> 1) default).upper))
      (maxUpper (xs.drop (xs.length >>> 1 + 1))) := by
  have hr : xs.length >>> 1 < xs.length := by
    have := shiftRight_one_eq xs.length; omega
  have hdec : xs = xs.take (xs.length >>> 1) ++ xs.getD (xs.length >>> 1) default
      :: xs.drop (xs.length >>> 1 + 1) := by
    have hget : xs.getD (xs.length >>> 1) default = xs[xs.length >>> 1] := by
      rw [List.getD_eq_getElem?_getD, List.getElem?_eq_getElem hr]
      rfl
    rw [hget, List.getElem_cons_drop, List.take_append_drop]
  unfold maxUpper
  conv_lhs => rw [hdec]
  rw [List.foldl_append, List.foldl_cons]
  simp only [maxUpper_step]
  have h0 : (0 : ℚ) ≤ max ((xs.take (xs.length >>> 1)).foldl
      (fun m s => max m s.upper) 0) ((xs.getD (xs.length >>> 1) default).upper) :=
    le_trans (foldlMax_ge_init _ 0) (le_max_left _ _)
  exact foldlMax_init_nonneg _ _ h0

theorem max_id1 (u : ℚ) : max (max 0 u) 0 = max 0 u :=
  max_eq_left (le_max_left 0 u)

theorem max_id2 (u b : ℚ) : max (max (max 0 b) u) 0 = max 0 (max u b) := by
  simp only [max_def]
  split_ifs <;> linarith

theorem max_id3 (u b c : ℚ) :
    max (max (max 0 b) u) (max 0 c) = max 0 (max (max u b) c) := by
  simp only [max_def]
  split_ifs <;> linarith

/-- Where `augment` writes each slice's scan result: the smax cell of the
slice's center slot. -/
theorem augment_center_smax (ys : List Slot) (h : ¬ ys.length < 1) :
    ((augment ys).getD (ys.length >>> 1) default).smax = maxUpper ys := by
  rw [augment_eq ys h]
  have hAlen : (augment (ys.take (ys.length >>> 1))).length = ys.length >>> 1 := by
    rw [augment_length, List.length_take]
    have := shiftRight_one_eq ys.length
    omega
  rw [getD_append_right _ _ _ _ (le_of_eq hAlen), hAlen, Nat.sub_self,
    List.getD_cons_zero]

/-- Link between the two augmentation variants on one slice: the scan value
equals the optimized center value clamped at `0`. -/
theorem clamp_center (ys : List Slot) (hne : 1 ≤ ys.length)
    (heq : augment ys = (augmentOpt ys).map clampSmax) :
    maxUpper ys = max (0 : ℚ)
      (((augmentOpt ys).getD ((augmentOpt ys).length >>> 1) default).smax) := by
  have hcs := augment_center_smax ys (by omega)
  rw [heq] at hcs
  have hlen : (augmentOpt ys).length = ys.length := augmentOpt_length ys
  have hpos : ys.length >>> 1 < (augmentOpt ys).length := by
    rw [hlen]
    have := shiftRight_one_eq ys.length
    omega
  have hposm : ys.length >>> 1 < ((augmentOpt ys).map clampSmax).length := by
    simpa using hpos
  rw [List.getD_eq_getElem?_getD, List.getElem?_eq_getElem hposm] at hcs
  simp only [Option.getD_some, List.getElem_map] at hcs
  rw [← hcs]
  have hk : (augmentOpt ys).length >>> 1 = ys.length >>> 1 := by rw [hlen]
  rw [hk, List.getD_eq_getElem?_getD, List.getElem?_eq_getElem hpos]
  simp [clampSmax]

/-- The source's augmentation equals the spec's optimized child-combining
augmentation with every smax value clamped below at `0` (the clamp is forced
by the source's `max := 0.0` initialization). -/
theorem augment_eq_augmentOpt_clamp (xs : List Slot) :
    augment xs = (augmentOpt xs).map clampSmax := by
  induction xs using augmentOpt.induct with
  | case1 xs h =>
    rw [augment, if_pos h, augmentOpt, if_pos h]
    rcases xs with _ | ⟨a, t⟩
    · rfl
    · exact absurd h (by simp)
  | case2 xs h r ih1 ih2 =>
    have hrdef : r = xs.length >>> 1 := rfl
    rw [hrdef] at ih1 ih2
    rw [augment_eq xs h, augmentOpt_eq xs h, List.map_append, List.map_cons]
    rw [ih1, ih2]
    congr 1
    congr 1
    have hr2 : xs.length >>> 1 = xs.length / 2 := shiftRight_one_eq _
    have hlenA : (augmentOpt (xs.take (xs.length >>> 1))).length
        = (xs.take (xs.length >>> 1)).length := augmentOpt_length _
    have hlenB : (augmentOpt (xs.drop (xs.length >>> 1 + 1))).length
        = (xs.drop (xs.length >>> 1 + 1)).length := augmentOpt_length _
    have htake_len : (xs.take (xs.length >>> 1)).length = xs.length >>> 1 := by
      rw [List.length_take]
      omega
    have hdrop_len : (xs.drop (xs.length >>> 1 + 1)).length
        = xs.length - (xs.length >>> 1) - 1 := by
      rw [List.length_drop]
      omega
    by_cases hB : 1 ≤ (augmentOpt (xs.drop (xs.length >>> 1 + 1))).length
    · have hA : 1 ≤ (augmentOpt (xs.take (xs.length >>> 1))).length := by
        rw [hlenA, htake_len]
        rw [hlenB, hdrop_len] at hB
        omega
      rw [if_pos hB, if_pos hA]
      have hL := clamp_center (xs.take (xs.length >>> 1))
        (by rw [← hlenA]; exact hA) ih1
      have hR := clamp_center (xs.drop (xs.length >>> 1 + 1))
        (by rw [← hlenB]; exact hB) ih2
      have hmx : maxUpper xs = max (0 : ℚ)
          (max (max (xs.getD (xs.length >>> 1) default).upper
            ((augmentOpt (xs.take (xs.length >>> 1))).getD
              ((augmentOpt (xs.take (xs.length >>> 1))).length >>> 1) default).smax)
            ((augmentOpt (xs.drop (xs.length >>> 1 + 1))).getD
              ((augmentOpt (xs.drop (xs.length >>> 1 + 1))).length >>> 1) default).smax) := by
        rw [maxUpper_decomp xs h, hL, hR]
        exact max_id3 _ _ _
      rw [hmx]
      rfl
    · by_cases hA : 1 ≤ (augmentOpt (xs.take (xs.length >>> 1))).length
      · rw [if_neg hB, if_pos hA]
        have hdrop_nil : xs.drop (xs.length >>> 1 + 1) = [] := by
          apply List.eq_nil_of_length_eq_zero
          rw [hlenB] at hB
          omega
        have hL := clamp_center (xs.take (xs.length >>> 1))
          (by rw [← hlenA]; exact hA) ih1
        have hmx : maxUpper xs = max (0 : ℚ)
            (max (xs.getD (xs.length >>> 1) default).upper
              ((augmentOpt (xs.take (xs.length >>> 1))).getD
                ((augmentOpt (xs.take (xs.length >>> 1))).length >>> 1) default).smax) := by
          rw [maxUpper_decomp xs h, hL, hdrop_nil]
          have h00 : maxUpper ([] : List Slot) = 0 := rfl
          rw [h00]
          exact max_id2 _ _
        rw [hmx]
        rfl
      · rw [if_neg hB, if_neg hA]
        have hdrop_nil : xs.drop (xs.length >>> 1 + 1) = [] := by
          apply List.eq_nil_of_length_eq_zero
          rw [hlenB] at hB
          omega
        have htake_nil : xs.take (xs.length >>> 1) = [] := by
          apply List.eq_nil_of_length_eq_zero
          rw [hlenA] at hA
          omega
        have hmx : maxUpper xs = max (0 : ℚ)
            (xs.getD (xs.length >>> 1) default).upper := by
          rw [maxUpper_decomp xs h, hdrop_nil, htake_nil]
          have h00 : maxUpper ([] : List Slot) = 0 := rfl
          rw [h00]
          exact max_id1 _
        rw [hmx]
        rfl

/-- Augmentation does not move or change the stored original indices. -/
theorem augment_map_idx (ys : List Slot) :
    (augment ys).map (fun s => s.idx) = ys.map (fun s => s.idx) := by
  apply List.ext_getElem
  · simp [augment_length]
  · intro k h1 h2
    simp only [List.getElem_map]
    have hfields := (augment_getD_fields ys k).2.2
    have hka : k < (augment ys).length := by simpa using h1
    have hky : k < ys.length := by simpa using h2
    rw [List.getD_eq_getElem?_getD, List.getElem?_eq_getElem hka,
      List.getD_eq_getElem?_getD, List.getElem?_eq_getElem hky] at hfields
    simpa using hfields

theorem initSlots_map_idx (bounds : List (ℚ × ℚ)) :
    (initSlots bounds).map (fun s => s.idx) = List.range bounds.length := by
  unfold initSlots
  rw [List.map_map]
  have hcomp : ((fun s : Slot => s.idx) ∘ fun i =>
      ({ lower := (bounds.getD i (0, 0)).1, upper := (bounds.getD i (0, 0)).2,
          smax := 0, idx := i } : Slot)) = fun i : ℕ => i := rfl
  rw [hcomp, List.map_id']

/-- The stored original positions of the built tree are a permutation of
`0, …, n-1`. -/
theorem buildTree_idx_perm (rands : List ℕ) (bounds : List (ℚ × ℚ)) :
    ((buildTree rands bounds).map fun s => s.idx).Perm
      (List.range bounds.length) := by
  have hb : buildTree rands bounds = augment ((sort rands (initSlots bounds)).1) := rfl
  rw [hb, augment_map_idx]
  have e := (sort_perm rands (initSlots bounds)).map (fun s => s.idx)
  rw [initSlots_map_idx] at e
  exact e

/-- `buildTreeV` ignores the satellite values: it builds the same tree as
`buildTree` applied to the bare limits. -/
theorem buildTreeV_eq_buildTree {V : Type} [Inhabited V] (rands : List ℕ)
    (bounds : List (ℚ × ℚ × V)) :
    buildTreeV rands bounds
      = buildTree rands (bounds.map fun x => (x.1, x.2.1)) := by
  unfold buildTreeV buildTree initSlots
  have hlen : (bounds.map fun x => (x.1, x.2.1)).length = bounds.length := by simp
  rw [hlen]
  have hmap : ((List.range bounds.length).map fun i =>
      ({ lower := (bounds.getD i default).1, upper := (bounds.getD i default).2.1,
          smax := 0, idx := i } : Slot))
      = (List.range bounds.length).map fun i =>
      ({ lower := ((bounds.map fun x => (x.1, x.2.1)).getD i (0, 0)).1,
          upper := ((bounds.map fun x => (x.1, x.2.1)).getD i (0, 0)).2,
          smax := 0, idx := i } : Slot) := by
    apply List.map_congr_left
    intro i hi
    have hilen : i < bounds.length := List.mem_range.mp hi
    have hget : (bounds.map fun x => (x.1, x.2.1)).getD i (0, 0)
        = ((bounds.getD i default).1, (bounds.getD i default).2.1) := by
      have himap : i < (bounds.map fun x => (x.1, x.2.1)).length := by simpa using hilen
      rw [List.getD_eq_getElem?_getD, List.getElem?_eq_getElem himap,
        List.getD_eq_getElem?_getD, List.getElem?_eq_getElem hilen]
      simp
    rw [hget]
  rw [hmap]

theorem ceilHalf_zero : ceilHalf 0 = 0 := by
  have h := ceilHalf_even 0
  simpa using h

theorem augment_nil : augment [] = [] := by
  rw [augment]
  simp

theorem augmentOpt_nil : augmentOpt [] = [] := by
  rw [augmentOpt]
  simp

theorem sort_small (rands : List ℕ) (arr : List Slot) (h : arr.length < 2) :
    sort rands arr = (arr, rands) := by
  rw [sort, if_pos h]

theorem augment_one (s : Slot) :
    augment [s] = [{ s with smax := maxUpper [s] }] := by
  rw [augment_eq [s] (by norm_num)]
  have h1 : ([s] : List Slot).length >>> 1 = 0 := by
    rw [List.length_singleton, shiftRight_one_eq]
  rw [h1]
  simp [augment_nil]

theorem augmentOpt_one (s : Slot) :
    augmentOpt [s] = [{ s with smax := s.upper }] := by
  rw [augmentOpt_eq [s] (by norm_num)]
  have h1 : ([s] : List Slot).length >>> 1 = 0 := by
    rw [List.length_singleton, shiftRight_one_eq]
  rw [h1]
  simp [augmentOpt_nil]

theorem maxUpper_one (s : Slot) :
    maxUpper [s] = if s.upper > 0 then s.upper else 0 := rfl

/-- Concrete build: one malformed interval with negative limits. -/
theorem eval_build_neg : buildTree [] [((-5 : ℚ), (-3 : ℚ))]
    = [⟨-5, -3, 0, 0⟩] := by
  unfold buildTree
  have hinit : initSlots [((-5 : ℚ), (-3 : ℚ))] = [⟨-5, -3, 0, 0⟩] := by
    unfold initSlots
    norm_num [List.range_succ]
  rw [hinit, sort_small _ _ (by norm_num), augment_one, maxUpper_one]
  norm_num

/-- Concrete optimized augmentation on the same slot list. -/
theorem eval_opt_neg : augmentOpt [(⟨-5, -3, 0, 0⟩ : Slot)]
    = [⟨-5, -3, -3, 0⟩] := by
  rw [augmentOpt_one]

/-- Concrete source augmentation on the same slot list. -/
theorem eval_aug_neg : augment [(⟨-5, -3, 0, 0⟩ : Slot)]
    = [⟨-5, -3, 0, 0⟩] := by
  rw [augment_one, maxUpper_one]
  norm_num

/-- Concrete build: one ordinary interval. -/
theorem eval_build_one : buildTree [] [((1 : ℚ), (3 : ℚ))]
    = [⟨1, 3, 3, 0⟩] := by
  unfold buildTree
  have hinit : initSlots [((1 : ℚ), (3 : ℚ))] = [⟨1, 3, 0, 0⟩] := by
    unfold initSlots
    norm_num [List.range_succ]
  rw [hinit, sort_small _ _ (by norm_num), augment_one, maxUpper_one]
  norm_num

/-- Concrete query on the one-interval tree. -/
theorem eval_inc_one : Including [(⟨1, 3, 3, 0⟩ : Slot)] 2 = [0] := by
  unfold Including
  norm_num [includingLoop, ceilHalf_zero]

/-- C1: for every collection of intervals and every query point `val`, the
slice returned by `Including` on the index built from that collection
equals, as a set, the brute-force set
`{ original position i : lower(i) ≤ val ≤ upper(i) }`; this holds for every
sequence of random pivot choices, and for `n = 0` the result is empty. -/
theorem C1_including_matches_bruteforce :
    ∀ (bounds : List (ℚ × ℚ)) (rands : List ℕ) (val : ℚ),
      (∀ i : ℕ, i ∈ Including (buildTree rands bounds) val
          ↔ i ∈ bruteIncluding bounds val)
      ∧ Including (buildTree rands []) val = [] := by
  intro bounds rands val
  constructor
  · intro i
    exact (Including_perm_brute rands bounds val).mem_iff
  · have h := Including_perm_brute rands [] val
    have hb : bruteIncluding [] val = [] := rfl
    rw [hb] at h
    exact h.eq_nil

/-- C2: the claim states `subtreeMax[i] = max(upper[j] for j in subtree(i))`
for every input collection, including all-negative upper bounds.  The code
initializes its scan with `max := 0.0`, so on the single malformed-free
interval `[-5, -3]` (where `subtree(0) = {0}`, hence the claimed value is
`-3`) the stored augmentation value is `0 ≠ -3`: the code contradicts the
documented invariant on all-negative inputs. -/
theorem C2_subtreeMax_zero_init_on_negative :
    ((buildTree [] [((-5 : ℚ), (-3 : ℚ))]).getD 0 default).smax = 0
    ∧ ((buildTree [] [((-5 : ℚ), (-3 : ℚ))]).getD 0 default).upper = -3
    ∧ (buildTree [] [((-5 : ℚ), (-3 : ℚ))]).length = 1
    ∧ (0 : ℚ) ≠ -3 := by
  rw [eval_build_neg]
  refine ⟨rfl, rfl, rfl, by norm_num⟩

/-- C3 counterexample: on the sorted one-slot array with upper bound `-3`,
the source's scan (initialized at `0.0`) stores `0` while the optimized
child-combining method yields `-3`, so the two are not identical as the
claim states. -/
theorem C3_counterexample_negative_upper :
    List.Pairwise (fun a b : Slot => a.lower ≤ b.lower) [(⟨-5, -3, 0, 0⟩ : Slot)]
    ∧ ((augment [(⟨-5, -3, 0, 0⟩ : Slot)]).getD 0 default).smax
      ≠ ((augmentOpt [(⟨-5, -3, 0, 0⟩ : Slot)]).getD 0 default).smax := by
  constructor
  · exact List.pairwise_singleton _ _
  · rw [eval_aug_neg, eval_opt_neg]
    norm_num

/-- C3 (amended): for every interval array (sorted or not), the source's
whole-range-scanning augmentation yields exactly the optimized
child-combining augmentation with every subtree-max value clamped below at
`0`; the two methods are identical whenever every decomposition range
contains a nonnegative upper bound, but not in general. -/
theorem C3_amended_augment_is_clamped_opt :
    ∀ xs : List Slot, augment xs = (augmentOpt xs).map clampSmax := by
  intro xs
  exact augment_eq_augmentOpt_clamp xs

/-- C4: build-time augmentation and query-time traversal use the same
centering rule: for a slot range `[l, r]` with `l ≤ r`, the absolute
position of the relative offset `len >> 1` used by `augment` equals
`center = ceil((l + r) / 2)` as computed by `Including` (`ceilHalf`), and
this center lies inside `[l, r]`, leaving the left subtree `[l, center-1]`
and the right subtree `[center+1, r]`. -/
theorem C4_centering_rules_agree :
    ∀ l r : ℕ, l ≤ r →
      ((l : ℤ) + (((r - l + 1) >>> 1 : ℕ) : ℤ) = ceilHalf ((l : ℤ) + (r : ℤ)))
      ∧ (l : ℤ) ≤ ceilHalf ((l : ℤ) + (r : ℤ))
      ∧ ceilHalf ((l : ℤ) + (r : ℤ)) ≤ (r : ℤ) := by
  intro l r h
  have hb := ceilHalf_bounds (show (l : ℤ) ≤ (r : ℤ) by exact_mod_cast h)
  refine ⟨?_, hb.1, hb.2⟩
  rw [shiftRight_one_eq]
  rcases Int.even_or_odd ((l : ℤ) + r) with ⟨a, ha⟩ | ⟨a, ha⟩
  · rw [show (l : ℤ) + r = 2 * a from by omega, ceilHalf_even]
    omega
  · rw [show (l : ℤ) + r = 2 * a + 1 from by omega, ceilHalf_odd]
    omega

/-- Witness for C4 at the concrete range `[2, 7]`. -/
theorem C4_witness : (2 : ℕ) ≤ 7
    ∧ (((2 : ℕ) : ℤ) + ((((7 : ℕ) - 2 + 1) >>> 1 : ℕ) : ℤ)
        = ceilHalf (((2 : ℕ) : ℤ) + ((7 : ℕ) : ℤ)))
    ∧ ((2 : ℕ) : ℤ) ≤ ceilHalf (((2 : ℕ) : ℤ) + ((7 : ℕ) : ℤ))
    ∧ ceilHalf (((2 : ℕ) : ℤ) + ((7 : ℕ) : ℤ)) ≤ ((7 : ℕ) : ℤ) :=
  ⟨by norm_num, C4_centering_rules_agree 2 7 (by norm_num)⟩

/-- C5: after construction from any input and for every sequence of random
pivot choices, the lower limits are non-decreasing across slots
`0 .. n-1`. -/
theorem C5_lower_limits_sorted :
    ∀ (bounds : List (ℚ × ℚ)) (rands : List ℕ) (i j : ℕ),
      i ≤ j → j < bounds.length →
      ((buildTree rands bounds).getD i default).lower
        ≤ ((buildTree rands bounds).getD j default).lower := by
  intro bounds rands i j hij hj
  have h := buildTree_mono rands bounds i j (by omega) (by exact_mod_cast hij)
    (by rw [buildTree_length]; omega)
  simpa [slotAt] using h

/-- Witness for C5 on the unsorted two-interval input `[(3,4), (1,2)]`. -/
theorem C5_witness : (0 : ℕ) ≤ 1 ∧ 1 < ([((3 : ℚ), (4 : ℚ)), (1, 2)]).length
    ∧ ((buildTree [1] [((3 : ℚ), (4 : ℚ)), (1, 2)]).getD 0 default).lower
      ≤ ((buildTree [1] [((3 : ℚ), (4 : ℚ)), (1, 2)]).getD 1 default).lower :=
  ⟨by norm_num, by norm_num,
    C5_lower_limits_sorted [((3 : ℚ), (4 : ℚ)), (1, 2)] [1] 0 1 (by norm_num)
      (by norm_num)⟩

/-- C6: the order array of every built index is a bijection on `[0, n)`
(its stored original positions are a permutation of `0, …, n-1`), every
position returned by `Including` lies in `[0, n)`, and the interval at that
original position satisfies the containment test that produced it. -/
theorem C6_order_bijection_and_roundtrip :
    ∀ (bounds : List (ℚ × ℚ)) (rands : List ℕ) (val : ℚ),
      ((buildTree rands bounds).map fun s => s.idx).Perm (List.range bounds.length)
      ∧ ∀ i : ℕ, i ∈ Including (buildTree rands bounds) val →
          i < bounds.length ∧ (bounds.getD i (0, 0)).1 ≤ val
            ∧ val ≤ (bounds.getD i (0, 0)).2 := by
  intro bounds rands val
  refine ⟨buildTree_idx_perm rands bounds, ?_⟩
  intro i hi
  have hmem := (Including_perm_brute rands bounds val).mem_iff.mp hi
  unfold bruteIncluding at hmem
  have h1 := List.mem_filter.mp hmem
  have h2 := List.mem_range.mp h1.1
  have h3 := of_decide_eq_true h1.2
  exact ⟨h2, h3.1, h3.2⟩

/-- Witness for C6 on the one-interval input `[(1,3)]` queried at `2`. -/
theorem C6_witness :
    (0 ∈ Including (buildTree [] [((1 : ℚ), (3 : ℚ))]) 2)
    ∧ 0 < ([((1 : ℚ), (3 : ℚ))]).length
    ∧ (([((1 : ℚ), (3 : ℚ))]).getD 0 (0, 0)).1 ≤ 2
    ∧ (2 : ℚ) ≤ (([((1 : ℚ), (3 : ℚ))]).getD 0 (0, 0)).2 := by
  have hm : 0 ∈ Including (buildTree [] [((1 : ℚ), (3 : ℚ))]) 2 := by
    rw [eval_build_one, eval_inc_one]
    simp
  have hc := (C6_order_bijection_and_roundtrip [((1 : ℚ), (3 : ℚ))] [] 2).2 0 hm
  exact ⟨hm, hc.1, hc.2.1, hc.2.2⟩

/-- C7: the Builder accepts every input without validation (it is a total
function), and a malformed interval with `lower > upper` is never returned
by `Including` for any query point: no error is ever reported, the
malformed interval simply never matches. -/
theorem C7_malformed_interval_never_matches :
    ∀ (bounds : List (ℚ × ℚ)) (rands : List ℕ) (val : ℚ) (i : ℕ),
      i < bounds.length →
      (bounds.getD i (0, 0)).2 < (bounds.getD i (0, 0)).1 →
      i ∉ Including (buildTree rands bounds) val := by
  intro bounds rands val i hi hmal hmem
  have h := (Including_perm_brute rands bounds val).mem_iff.mp hmem
  unfold bruteIncluding at h
  have h1 := List.mem_filter.mp h
  have h3 := of_decide_eq_true h1.2
  have hle : (bounds.getD i (0, 0)).1 ≤ (bounds.getD i (0, 0)).2 :=
    le_trans h3.1 h3.2
  exact absurd hle (not_le.mpr hmal)

/-- Witness for C7 on the malformed input `[(5, 3)]` queried at `4`. -/
theorem C7_witness : 0 < ([((5 : ℚ), (3 : ℚ))]).length
    ∧ (([((5 : ℚ), (3 : ℚ))]).getD 0 (0, 0)).2 < (([((5 : ℚ), (3 : ℚ))]).getD 0 (0, 0)).1
    ∧ 0 ∉ Including (buildTree [] [((5 : ℚ), (3 : ℚ))]) 4 :=
  ⟨by norm_num, by norm_num,
    C7_malformed_interval_never_matches [((5 : ℚ), (3 : ℚ))] [] 4 0 (by norm_num)
      (by norm_num)⟩

/-- C8: the index never consults the satellite value: two `ValuedBounds`
collections agreeing on all lower and upper limits (but with arbitrary,
even differently-typed, `Value()` payloads) produce identical indexes under
`NewINTreeV` with the same pivot choices, and every query returns identical
results. -/
theorem C8_satellite_value_ignored {V W : Type} [Inhabited V] [Inhabited W] :
    ∀ (rands : List ℕ) (a : List (ℚ × ℚ × V)) (b : List (ℚ × ℚ × W)),
      a.map (fun x => (x.1, x.2.1)) = b.map (fun x => (x.1, x.2.1)) →
      NewINTreeV rands a = NewINTreeV rands b
      ∧ ∀ val : ℚ, Including (NewINTreeV rands a) val
          = Including (NewINTreeV rands b) val := by
  intro rands a b h
  have he : NewINTreeV rands a = NewINTreeV rands b := by
    unfold NewINTreeV
    rw [buildTreeV_eq_buildTree, buildTreeV_eq_buildTree, h]
  exact ⟨he, fun val => by rw [he]⟩

/-- Witness for C8: same limits `(1, 2)`, satellite values `7 : ℕ` versus
`true : Bool`. -/
theorem C8_witness :
    ([((1 : ℚ), (2 : ℚ), (7 : ℕ))].map (fun x => (x.1, x.2.1))
      = [((1 : ℚ), (2 : ℚ), true)].map (fun x => (x.1, x.2.1)))
    ∧ NewINTreeV [] [((1 : ℚ), (2 : ℚ), (7 : ℕ))]
      = NewINTreeV [] [((1 : ℚ), (2 : ℚ), true)] := by
  have hm : [((1 : ℚ), (2 : ℚ), (7 : ℕ))].map (fun x => (x.1, x.2.1))
      = [((1 : ℚ), (2 : ℚ), true)].map (fun x => (x.1, x.2.1)) := rfl
  exact ⟨hm, (C8_satellite_value_ignored [] _ _ hm).1⟩

/-- C9: for every built index and every query point, the slice returned by
`Including` contains no duplicate entries: each original position appears at
most once. -/
theorem C9_result_has_no_duplicates :
    ∀ (bounds : List (ℚ × ℚ)) (rands : List ℕ) (val : ℚ),
      (Including (buildTree rands bounds) val).Nodup := by
  intro bounds rands val
  have hperm := Including_perm_brute rands bounds val
  have hbrute : (bruteIncluding bounds val).Nodup := by
    unfold bruteIncluding
    exact (List.nodup_range _).filter _
  exact hperm.nodup_iff.mpr hbrute

/-- C10: the query is total and never reads `limits` or `indexes` out of
bounds: the instrumented loop, which returns `none` at the first
out-of-range `limits[3*center]`, `limits[3*center+1]`, `limits[3*center+2]`
or `indexes[center]` access (and on fuel exhaustion), completes with
exactly the result of `Including` on every built index — including `n = 0`,
where the initial stack holds the range `(0, -1)` and the `l = r + 1` guard
filters it before any access. -/
theorem C10_query_never_out_of_bounds :
    ∀ (bounds : List (ℚ × ℚ)) (rands : List ℕ) (val : ℚ),
      includingLoopChecked (buildTree rands bounds) val
          (3 ^ (buildTree rands bounds).length + 1)
          [(0, ((buildTree rands bounds).length : ℤ) - 1)] []
        = some (Including (buildTree rands bounds) val) := by
  intro bounds rands val
  unfold Including
  apply includingLoopChecked_eq
  · intro p hp
    rcases List.mem_singleton.mp hp with rfl
    refine ⟨le_rfl, le_rfl, by simp⟩
  · have hsz : ((((buildTree rands bounds).length : ℤ) - 1) + 1 - 0).toNat
        = (buildTree rands bounds).length := by omega
    simp [stackMeasure, hsz]

end Intree
